import Mathlib

/-!
Shallow embedding of the `pgm` grid-diffusion simulation (`src/main.rs`).

Machine integers: the Rust code stores signal magnitudes in `u16` (`Signal`)
and the tick counter in `u32` (`Tick`).  We model `u16` values as `Nat`
reduced modulo `M = 2^16` at every arithmetic operation, matching Rust's
release-mode wrapping semantics; a comment marks each spot where a debug
build would instead panic on overflow.  The tick counter never approaches
`2^32` in any statement below, so it is a plain `Nat`.

Failure: Rust panics (failed `assert!`, out-of-bounds indexing, `u16`
division by zero) are modelled by returning `none` from an
`Option`-valued function.

Randomness: `rand::thread_rng().gen_bool(..)` draws are an oracle `List
Bool` consumed one flip per connection, and the per-tick
`rand::seq::index::sample(..)` result is an oracle `List Nat` constrained
by `ValidSample` to the documented contract of `sample` (distinct indices
below `len`, exactly `amount` of them).
-/

namespace Pgm

/-- `2^16`, the modulus of Rust's `u16` (`Signal`). -/
def M : Nat := 65536

/-- `SIGNAL_BACKLOG_LENGTH` from the source: the ring-buffer length `W`. -/
def SIGNAL_BACKLOG_LENGTH : Nat := 4

/-- `SIGNAL_BACKLOG_UNIT` from the source: ticks per ring slot, `U`. -/
def SIGNAL_BACKLOG_UNIT : Nat := 8

/-- `RANDOM_TICK_PERCENTAGE` from the source. -/
def RANDOM_TICK_PERCENTAGE : Nat := 20

/-- `TileType` from the source (spec names: Empty/Bedrock/Source). -/
inductive TileType where
  | Air
  | Bedrock
  | Brick
deriving DecidableEq, Repr

/-- `TileType::weight` (the spec's `source_strength`). -/
def TileType.weight : TileType → Nat
  | .Air => 0
  | .Bedrock => 0
  | .Brick => 100

/-- `TileType::accepts`. -/
def TileType.accepts : TileType → Bool
  | .Air => false
  | .Bedrock => true
  | .Brick => true

/-- `TileType::emits`. -/
def TileType.emits : TileType → Bool
  | .Air => false
  | .Bedrock => false
  | .Brick => true

/-- `TileType::absorbs`. -/
def TileType.absorbs : TileType → Bool
  | .Air => false
  | .Bedrock => true
  | .Brick => false

/-- `Tile` from the source.  `signals` is the `[Signal; 4]` ring buffer,
modelled as a `List Nat` whose length is `4` in every well-formed state. -/
structure Tile where
  ty : TileType
  signals : List Nat
  signal_sum : Nat
  next_signal : Nat
deriving DecidableEq, Repr

/-- `Tile::default()`: `Air`, all-zero signals. -/
instance : Inhabited Tile :=
  ⟨{ ty := .Air, signals := [0, 0, 0, 0], signal_sum := 0, next_signal := 0 }⟩

/-- `Dim` from the source. -/
structure Dim where
  width : Nat
  height : Nat
deriving DecidableEq, Repr

/-- `Dim::xy_offset`.  The two `assert!`s are modelled by `none`. -/
def Dim.xy_offset (d : Dim) (x y : Nat) : Option Nat :=
  if x < d.width then
    if y < d.height then some (x + y * d.width) else none
  else none

/-- `Dim::offset_xy`.  The `assert!` is modelled by `none`. -/
def Dim.offset_xy (d : Dim) (offset : Nat) : Option (Nat × Nat) :=
  if offset < d.width * d.height then
    some (offset % d.width, offset / d.width)
  else none

/-- `SIDES` from the source, paired with the index `side` that
`flagged_tick` stores into its `conns` vector via `enumerate()`. -/
def sidesEnum : List (Nat × Int × Int) :=
  [(0, (1, 0)), (1, (-1, 0)), (2, (0, 1)), (3, (0, -1))]

/-- `usize::checked_add_signed` for the deltas used here: fails exactly on
underflow below zero.  (Overflow past `usize::MAX` is unreachable at grid
scales and not modelled: `Nat` addition cannot overflow.) -/
def checkedAddSigned (x : Nat) (d : Int) : Option Nat :=
  if (x : Int) + d < 0 then none else some ((x : Int) + d).toNat

/-- `World` from the source (the spec's Grid). -/
structure World where
  dim : Dim
  tiles : List Tile
  flagged_tiles : List Nat
  next_flagged_tiles : List Nat
  cursor : Nat × Nat
deriving DecidableEq, Repr

/-- `World::new`. -/
def World.new (width height : Nat) : World :=
  { dim := { width := width, height := height }
    tiles := List.replicate (width * height) default
    flagged_tiles := []
    next_flagged_tiles := []
    cursor := (0, 0) }

/-- `world[(x, y)]` (the `Index` impl): `xy_offset` (whose asserts can
panic) followed by `Vec` indexing (which panics out of bounds). -/
def World.getTile (w : World) (x y : Nat) : Option Tile :=
  match w.dim.xy_offset x y with
  | none => none
  | some o => w.tiles[o]?

/-- `&mut world[(x, y)]` followed by a field update (the `IndexMut` impl):
fails where the source would panic. -/
def World.modifyTile (w : World) (x y : Nat) (f : Tile → Tile) : Option World :=
  match w.dim.xy_offset x y with
  | none => none
  | some o =>
    if o < w.tiles.length then
      some { w with tiles := w.tiles.set o (f (w.tiles.getD o default)) }
    else none

/-- One cell of `World::pre_tick`: `signal_sum -= signals[s]`,
`signal_sum += next_signal`, `signals[s] = next_signal`, with the two
`u16` operations wrapping modulo `M` (a debug build would panic on
wrap-around instead). -/
def preTickTile (s : Nat) (t : Tile) : Tile :=
  let sum1 := (t.signal_sum + M - t.signals.getD s 0) % M
  let sum2 := (sum1 + t.next_signal) % M
  { t with signal_sum := sum2, signals := t.signals.set s t.next_signal }

/-- `World::pre_tick` (the spec's Phase A decay shift). -/
def World.pre_tick (w : World) (now : Nat) : World :=
  let s := (now / SIGNAL_BACKLOG_UNIT) % SIGNAL_BACKLOG_LENGTH
  { w with tiles := w.tiles.map (preTickTile s) }

/-- The connection-set loop of `World::flagged_tick`: for each entry of
`SIDES`, a `checked_add_signed` failure skips the side, while an
in-`usize`-range but out-of-grid coordinate reaches `self[(x2, y2)]`,
whose `xy_offset` assert panics (`none` here).  Accepting neighbors
contribute their side index, in `SIDES` order. -/
def connsAux (w : World) (x y : Nat) : List (Nat × Int × Int) → Option (List Nat)
  | [] => some []
  | (side, dx, dy) :: rest =>
    match checkedAddSigned x dx, checkedAddSigned y dy with
    | some x2, some y2 =>
      match w.getTile x2 y2 with
      | none => none
      | some t =>
        match connsAux w x y rest with
        | none => none
        | some cs => some (if t.ty.accepts then side :: cs else cs)
    | _, _ => connsAux w x y rest

/-- The body of `if !neighbor.ty.absorbs() { neighbor.next_signal.0 += per_side }`:
absorbing tiles are untouched, others gain `per_side` on `next_signal`
(wrapping). -/
def shareUpd (per : Nat) (t : Tile) : Tile :=
  if t.ty.absorbs then t
  else { t with next_signal := (t.next_signal + per) % M }

/-- The payout loop of `World::flagged_tick` over the `conns` vector:
re-derive each stored side's coordinates (the source `unwrap`s —
guaranteed to succeed for stored sides), take `&mut self[(x2, y2)]`
(bounds-checked), add `per_side` to `next_signal` unless the neighbor
absorbs, then consume one random flip and, when it is true, push
`xy_offset(x2, y2)` onto `next_flagged_tiles`. -/
def payoutAux (per_side x y : Nat) :
    World → List Bool → List Nat → Option (World × List Bool)
  | w, flips, [] => some (w, flips)
  | w, flips, side :: rest =>
    match sidesEnum.getD side (0, 0, 0) with
    | (_, dx, dy) =>
      match checkedAddSigned x dx, checkedAddSigned y dy with
      | some x2, some y2 =>
        match w.modifyTile x2 y2 (shareUpd per_side) with
        | none => none
        | some w1 =>
          let flip := flips.headD false
          match (if flip then
                  (w1.dim.xy_offset x2 y2).map fun o =>
                    { w1 with next_flagged_tiles := w1.next_flagged_tiles ++ [o] }
                 else some w1) with
          | none => none
          | some w2 => payoutAux per_side x y w2 flips.tail rest
      | _, _ => none

/-- The body of `self[(x, y)].next_signal.0 -= signal_sum.0`: the emitting
cell pays out its whole `running_sum` from `pending` (wrapping `u16`
subtraction; a debug build panics when `pending < running_sum`). -/
def payAll (sum : Nat) (t : Tile) : Tile :=
  { t with next_signal := (t.next_signal + M - sum) % M }

/-- `World::flagged_tick` (one Phase B work item).  `none` models a panic:
the `offset_xy` assert, out-of-bounds tile access, an out-of-grid neighbor
probe inside the connection loop, or — when `conns` is empty — the `u16`
division by zero in `signal_sum / conns.len()`. -/
def flaggedTick (w : World) (flips : List Bool) (tile_offset : Nat) :
    Option (World × List Bool) :=
  match w.dim.offset_xy tile_offset with
  | none => none
  | some (x, y) =>
    match w.tiles[tile_offset]? with
    | none => none
    | some tile =>
      if tile.ty.emits then
        match connsAux w x y sidesEnum with
        | none => none
        | some conns =>
          match w.modifyTile x y (payAll tile.signal_sum) with
          | none => none
          | some w1 =>
            match conns with
            | [] => none
            | _ :: _ =>
              let per_side := tile.signal_sum / conns.length
              payoutAux per_side x y w1 flips conns
      else some (w, flips)

/-- The `for flagged in flagged_tiles` loop of `World::tick`. -/
def phaseBAux : World → List Bool → List Nat → Option (World × List Bool)
  | w, flips, [] => some (w, flips)
  | w, flips, o :: rest =>
    match flaggedTick w flips o with
    | none => none
    | some (w1, flips1) => phaseBAux w1 flips1 rest

/-- The body of `tile.next_signal.0 += tile.ty.weight().0` (wrapping). -/
def bumpTile (t : Tile) : Tile :=
  { t with next_signal := (t.next_signal + t.ty.weight) % M }

/-- `World::random_tick` (one Phase C work item): `tiles[o]` indexing
(panics out of bounds) then `next_signal += ty.weight()`, wrapping. -/
def World.random_tick (w : World) (tile_offset : Nat) : Option World :=
  if tile_offset < w.tiles.length then
    let t1 := bumpTile (w.tiles.getD tile_offset default)
    some { w with tiles := w.tiles.set tile_offset t1 }
  else none

/-- The `for result in results` loop of `World::tick`. -/
def phaseCAux : World → List Nat → Option World
  | w, [] => some w
  | w, o :: rest =>
    match w.random_tick o with
    | none => none
    | some w1 => phaseCAux w1 rest

/-- The documented contract of `rand::seq::index::sample(len, amount)`
with `amount = len * RANDOM_TICK_PERCENTAGE / 100` as computed in
`World::tick`: exactly `amount` distinct indices, all below `len`. -/
def ValidSample (len : Nat) (sample : List Nat) : Prop :=
  sample.length = len * RANDOM_TICK_PERCENTAGE / 100 ∧
    sample.Nodup ∧ ∀ o ∈ sample, o < len

instance (len : Nat) (sample : List Nat) : Decidable (ValidSample len sample) := by
  unfold ValidSample; infer_instance

/-- `World::tick`: Phase A, the double-buffer worklist dance around the
Phase B loop (`mem::replace` ×2, the loop, `mem::swap`, `clear`), then
Phase C over a sample satisfying the `rand` contract. -/
def World.tick (w : World) (now : Nat) (flips : List Bool) (sample : List Nat) :
    Option World :=
  let w0 := w.pre_tick now
  -- let next_flagged_tiles = mem::replace(&mut self.next_flagged_tiles, Vec::new());
  -- let flagged_tiles = mem::replace(&mut self.flagged_tiles, next_flagged_tiles);
  let worklist := w0.flagged_tiles
  let w1 := { w0 with flagged_tiles := w0.next_flagged_tiles,
                      next_flagged_tiles := [] }
  match phaseBAux w1 flips worklist with
  | none => none
  | some (w2, _) =>
    -- mem::swap(&mut self.flagged_tiles, &mut self.next_flagged_tiles);
    -- self.next_flagged_tiles.clear();
    let w3 := { w2 with flagged_tiles := w2.next_flagged_tiles,
                        next_flagged_tiles := [] }
    if ValidSample w3.tiles.length sample then phaseCAux w3 sample else none

/-- `world[cursor].ty = tile`, the single external cell-type setter used
by the editing collaborator (it touches no signal state). -/
def World.setTy (w : World) (x y : Nat) (ty : TileType) : Option World :=
  w.modifyTile x y (fun t => { t with ty := ty })

/-- One externally driven step of the program: either a simulation tick
(with its random oracles) or a cell-type edit. -/
inductive Step where
  | tick (flips : List Bool) (sample : List Nat)
  | setTy (x y : Nat) (ty : TileType)

/-- Run a list of steps from a world, threading the tick counter exactly
as `main` does (`current_tick` starts at 0 and increments after each
`tick`; edits do not advance it). -/
def runAux : World → Nat → List Step → Option World
  | w, _, [] => some w
  | w, t, Step.tick flips sample :: rest =>
    match w.tick t flips sample with
    | none => none
    | some w1 => runAux w1 (t + 1) rest
  | w, t, Step.setTy x y ty :: rest =>
    match w.setTy x y ty with
    | none => none
    | some w1 => runAux w1 t rest

/-- Run a list of steps from a freshly constructed `width × height` world. -/
def run (width height : Nat) (steps : List Step) : Option World :=
  runAux (World.new width height) 0 steps

/-! ## Derived notions used to state the claims -/

/-- The neighbor coordinates reached from `(x, y)` through `SIDES[side]`
(as `Nat` pairs; sides whose probe underflows are never looked up through
this function with an in-range guarantee). -/
def sideCoord (x y : Nat) : Nat → Nat × Nat
  | 0 => (x + 1, y)
  | 1 => (x - 1, y)
  | 2 => (x, y + 1)
  | 3 => (x, y - 1)
  | _ => (x, y)

/-- The row-major offset of the neighbor reached through `SIDES[side]`. -/
def sideOff (d : Dim) (x y side : Nat) : Nat :=
  (sideCoord x y side).1 + (sideCoord x y side).2 * d.width

/-- The offsets the payout loop pushes onto `next_flagged_tiles`: one per
connection whose random flip came up true, in `conns` order. -/
def pushesOf (d : Dim) (x y : Nat) : List Nat → List Bool → List Nat
  | [], _ => []
  | side :: rest, flips =>
    (if flips.headD false then [sideOff d x y side] else []) ++
      pushesOf d x y rest flips.tail

/-- The offsets one `flagged_tick` work item pushes, recomputed from the
(tile types of the) world it starts from, together with the remaining flip
oracle. -/
def tilePushes (w : World) (flips : List Bool) (o : Nat) : List Nat × List Bool :=
  match w.dim.offset_xy o with
  | none => ([], flips)
  | some (x, y) =>
    match w.tiles[o]? with
    | none => ([], flips)
    | some tile =>
      if tile.ty.emits then
        match connsAux w x y sidesEnum with
        | none => ([], flips)
        | some conns => (pushesOf w.dim x y conns flips, flips.drop conns.length)
      else ([], flips)

/-- The offsets a whole Phase B worklist pushes, in processing order,
recomputed from the world Phase B starts from (tile types never change
during Phase B, so this is well defined). -/
def worklistPushes (w : World) (flips : List Bool) : List Nat → List Nat
  | [] => []
  | o :: rest =>
    (tilePushes w flips o).1 ++ worklistPushes w (tilePushes w flips o).2 rest

/-- Validity of a side probe from `(x, y)`: the side index is one of the
four directions, the reached coordinates are within grid bounds, and for
the west/south probes the coordinate did not underflow. -/
def SideOkay (d : Dim) (x y side : Nat) : Prop :=
  side < 4 ∧ (sideCoord x y side).1 < d.width ∧ (sideCoord x y side).2 < d.height ∧
    (side = 1 → 1 ≤ x) ∧ (side = 3 → 1 ≤ y)

/-- Well-formedness of one tile as a `u16` state, together with the
(mod-2^16) ring invariant: 4 history slots, every stored quantity below
`2^16`, and `signal_sum` congruent to the slot sum modulo `2^16`. -/
def TileInv (t : Tile) : Prop :=
  t.signals.length = SIGNAL_BACKLOG_LENGTH ∧ (∀ v ∈ t.signals, v < M) ∧
    t.next_signal < M ∧ t.signal_sum = t.signals.sum % M

instance (t : Tile) : Decidable (TileInv t) := by
  unfold TileInv; infer_instance

/-- The per-cell invariant over a whole world. -/
def WorldInv (w : World) : Prop := ∀ t ∈ w.tiles, TileInv t

instance (w : World) : Decidable (WorldInv w) := by
  unfold WorldInv; infer_instance

/-! ## Concrete worlds used by individual claims -/

/-- A default (`Air`, all-zero) tile. -/
def airTile : Tile := default

/-- A `Brick` tile with no accumulated signal. -/
def brickTile : Tile := { (default : Tile) with ty := .Brick }

/-- A `Brick` tile holding signal: slot 0 and `signal_sum` are 10, and
`next_signal` (pending) is 10. -/
def brickTileHot : Tile :=
  { ty := .Brick, signals := [10, 0, 0, 0], signal_sum := 10, next_signal := 10 }

/-- 2×2 world with an emitting `Brick` at offset 1 = (1, 0), on the right
boundary (x = width − 1). -/
def worldRightEdge : World :=
  { dim := { width := 2, height := 2 }
    tiles := [airTile, brickTile, airTile, airTile]
    flagged_tiles := [], next_flagged_tiles := [], cursor := (0, 0) }

/-- 3×3 world with an emitting `Brick` at the center offset 4 = (1, 1);
all four in-bounds neighbors are `Air`, which does not accept, so the
connection set is empty. -/
def worldLoneBrick : World :=
  { dim := { width := 3, height := 3 }
    tiles := [airTile, airTile, airTile, airTile, brickTile, airTile,
              airTile, airTile, airTile]
    flagged_tiles := [], next_flagged_tiles := [], cursor := (0, 0) }

/-- 3×3 world with a signal-charged `Brick` at the center offset 4 and an
accepting, non-absorbing `Brick` neighbor at offset 5 = (2, 1). -/
def worldTwoBricks : World :=
  { dim := { width := 3, height := 3 }
    tiles := [airTile, airTile, airTile, airTile, brickTileHot, brickTile,
              airTile, airTile, airTile]
    flagged_tiles := [], next_flagged_tiles := [], cursor := (0, 0) }

/-- `worldTwoBricks` with the center Brick on the active worklist. -/
def worldTwoBricksActive : World := { worldTwoBricks with flagged_tiles := [4] }

/-- A 5×1 run: turn cell (0, 0) into a `Brick`, then run 177 ticks in each
of which the (size-1) replenishment sample hits cell 0 and the worklist is
empty — the same trajectory the deployed engine follows when the sampler
keeps drawing the sole source cell. -/
def overflowSteps : List Step :=
  Step.setTy 0 0 .Brick :: List.replicate 177 (Step.tick [] [0])

/-- The world reached by `overflowSteps` (the `getD` default is never used:
the run succeeds). -/
def overflowWorld : World := (run 5 1 overflowSteps).getD (World.new 0 0)

set_option maxRecDepth 10000

/-! ## Basic list and arithmetic helper lemmas -/

theorem getD_set_self {α} (l : List α) (i : Nat) (v d : α)
    (h : i < l.length) : (l.set i v).getD i d = v := by
  simp [List.getD, List.getElem?_set_self h]

theorem getD_set_ne {α} (l : List α) (i j : Nat) (v d : α)
    (h : i ≠ j) : (l.set i v).getD j d = l.getD j d := by
  simp [List.getD, List.getElem?_set_ne h]

theorem getElem?_eq_getD {α} (l : List α) (i : Nat) (d : α)
    (h : i < l.length) : l[i]? = some (l.getD i d) := by
  simp [List.getD, List.getElem?_eq_getElem h]

theorem getD_lt_length {α} (l : List α) (i : Nat) (v d : α)
    (h : l[i]? = some v) : i < l.length ∧ l.getD i d = v := by
  have hi : i < l.length := by
    by_contra hc
    rw [List.getElem?_eq_none (by omega)] at h
    exact Option.noConfusion h
  refine ⟨hi, ?_⟩
  rw [getElem?_eq_getD l i d hi] at h
  exact (Option.some.injEq _ _).mp h

theorem getD_le_sum (l : List Nat) (s : Nat) (h : s < l.length) :
    l.getD s 0 ≤ l.sum := by
  have hm : l[s] ∈ l := List.getElem_mem h
  have h2 : l.getD s 0 = l[s] := by simp [List.getD, List.getElem?_eq_getElem h]
  rw [h2]
  exact List.single_le_sum (by simp) _ hm

theorem sum_set_add (l : List Nat) (s v : Nat) (h : s < l.length) :
    (l.set s v).sum + l.getD s 0 = l.sum + v := by
  induction l generalizing s with
  | nil => simp at h
  | cons a t ih =>
    cases s with
    | zero => simp [List.getD]; omega
    | succ s =>
      simp only [List.set, List.sum_cons, List.getD_cons_succ]
      have := ih s (by simpa using h)
      omega

/-- Undoing a wrapped `u16` subtraction by re-adding the same value. -/
theorem mod_sub_add_cancel (a b : Nat) (ha : a < M) (hb : b < M) :
    ((a + M - b) % M + b) % M = a := by
  have h1 : a + M - b = a + (M - b) := by omega
  rw [h1, Nat.mod_add_mod, Nat.add_assoc]
  have h2 : M - b + b = M := by omega
  rw [h2, Nat.add_mod_right, Nat.mod_eq_of_lt ha]

theorem checkedAddSigned_one (x : Nat) : checkedAddSigned x 1 = some (x + 1) := by
  unfold checkedAddSigned
  rw [if_neg (by omega)]
  simp only [Option.some.injEq]
  all_goals omega

theorem checkedAddSigned_zero (x : Nat) : checkedAddSigned x 0 = some x := by
  unfold checkedAddSigned
  rw [if_neg (by omega)]
  simp only [Option.some.injEq]
  all_goals omega

theorem checkedAddSigned_neg_one (x : Nat) :
    checkedAddSigned x (-1) = if x = 0 then none else some (x - 1) := by
  unfold checkedAddSigned
  by_cases hx : x = 0
  · subst hx; rw [if_pos (by omega), if_pos rfl]
  · rw [if_neg (by omega), if_neg hx]
    simp only [Option.some.injEq]
    all_goals omega

/-! ## Coordinate-map lemmas -/

theorem xy_offset_eq (d : Dim) (x y : Nat) (hx : x < d.width) (hy : y < d.height) :
    d.xy_offset x y = some (x + y * d.width) := by
  unfold Dim.xy_offset
  rw [if_pos hx, if_pos hy]

theorem offset_lt_area (d : Dim) {x y : Nat} (hx : x < d.width) (hy : y < d.height) :
    x + y * d.width < d.width * d.height := by
  calc x + y * d.width < d.width + y * d.width := by omega
    _ = (y + 1) * d.width := by ring
    _ ≤ d.height * d.width := Nat.mul_le_mul_right _ (by omega)
    _ = d.width * d.height := Nat.mul_comm _ _

theorem xy_inj (wdt : Nat) {x1 y1 x2 y2 : Nat} (h1 : x1 < wdt) (h2 : x2 < wdt)
    (he : x1 + y1 * wdt = x2 + y2 * wdt) : x1 = x2 ∧ y1 = y2 := by
  have hw : 0 < wdt := by omega
  have hx : x1 = x2 := by
    have e1 : (x1 + y1 * wdt) % wdt = x1 % wdt := Nat.add_mul_mod_self_right x1 y1 wdt
    have e2 : (x1 + y1 * wdt) % wdt = x2 % wdt := by
      rw [he]; exact Nat.add_mul_mod_self_right x2 y2 wdt
    rw [e1, Nat.mod_eq_of_lt h1, Nat.mod_eq_of_lt h2] at e2
    exact e2
  refine ⟨hx, ?_⟩
  subst hx
  have : y1 * wdt = y2 * wdt := by omega
  exact Nat.eq_of_mul_eq_mul_right hw this

theorem offset_xy_spec (d : Dim) (o x y : Nat) (h : d.offset_xy o = some (x, y)) :
    x < d.width ∧ y < d.height ∧ x + y * d.width = o ∧ o < d.width * d.height := by
  unfold Dim.offset_xy at h
  by_cases ho : o < d.width * d.height
  · rw [if_pos ho] at h
    have hxy := (Option.some.injEq _ _).mp h
    have hx : x = o % d.width := by
      have := congrArg Prod.fst hxy; simpa using this.symm
    have hy : y = o / d.width := by
      have := congrArg Prod.snd hxy; simpa using this.symm
    have hw : 0 < d.width := by
      by_contra hc
      have : d.width = 0 := by omega
      rw [this] at ho; simp at ho
    subst hx hy
    refine ⟨Nat.mod_lt _ hw, ?_, Nat.mod_add_div' o d.width, ho⟩
    rw [Nat.div_lt_iff_lt_mul hw]
    exact lt_of_lt_of_le ho (le_of_eq (Nat.mul_comm _ _))
  · rw [if_neg ho] at h
    exact Option.noConfusion h

/-- C10: for every in-bounds coordinate, `to_offset` is the row-major
offset `x + y·width` and `to_coords` inverts it; `to_offset` fails exactly
when `x ≥ width` or `y ≥ height`, and `to_coords` fails exactly when
`offset ≥ width·height`. -/
theorem coordinate_map_roundtrip (d : Dim) (x y o : Nat) :
    (x < d.width → y < d.height →
      d.xy_offset x y = some (x + y * d.width) ∧
      d.offset_xy (x + y * d.width) = some (x, y)) ∧
    (d.xy_offset x y = none ↔ d.width ≤ x ∨ d.height ≤ y) ∧
    (d.offset_xy o = none ↔ d.width * d.height ≤ o) := by
  refine ⟨fun hx hy => ⟨xy_offset_eq d x y hx hy, ?_⟩, ?_, ?_⟩
  · unfold Dim.offset_xy
    rw [if_pos (offset_lt_area d hx hy)]
    have hw : 0 < d.width := by omega
    have h1 : (x + y * d.width) % d.width = x := by
      rw [Nat.add_mul_mod_self_right, Nat.mod_eq_of_lt hx]
    have h2 : (x + y * d.width) / d.width = y := by
      rw [Nat.add_mul_div_right _ _ hw, Nat.div_eq_of_lt hx, Nat.zero_add]
    rw [h1, h2]
  · unfold Dim.xy_offset
    constructor
    · intro h
      by_cases hx : x < d.width
      · rw [if_pos hx] at h
        by_cases hy : y < d.height
        · rw [if_pos hy] at h; exact Option.noConfusion h
        · right; omega
      · left; omega
    · intro h
      rcases h with h | h
      · rw [if_neg (by omega)]
      · by_cases hx : x < d.width
        · rw [if_pos hx, if_neg (by omega)]
        · rw [if_neg hx]
  · unfold Dim.offset_xy
    constructor
    · intro h
      by_cases ho : o < d.width * d.height
      · rw [if_pos ho] at h; exact Option.noConfusion h
      · omega
    · intro h
      rw [if_neg (by omega)]

/-- Witness for C10 at a concrete dimension, coordinate and offset. -/
theorem coordinate_map_roundtrip_witness :
    ((Dim.mk 3 2).xy_offset 2 1 = some 5 ∧ (Dim.mk 3 2).offset_xy 5 = some (2, 1)) ∧
    ((Dim.mk 3 2).xy_offset 7 1 = none ↔ 3 ≤ 7 ∨ 2 ≤ 1) ∧
    ((Dim.mk 3 2).offset_xy 6 = none ↔ 6 ≤ 6) := by
  refine ⟨?_, ?_, ?_⟩
  · have h := (coordinate_map_roundtrip (Dim.mk 3 2) 2 1 5).1 (by decide) (by decide)
    simpa using h
  · exact (coordinate_map_roundtrip (Dim.mk 3 2) 7 1 5).2.1
  · exact (coordinate_map_roundtrip (Dim.mk 3 2) 2 1 6).2.2

/-! ## Claim theorems on the concrete worlds -/

/-- C1: on the right grid boundary the neighbor probe `x + 1` passes
`checked_add_signed` (which only guards `usize` underflow) and reaches
`self[(x2, y2)]`, whose `xy_offset` assert `x < width` fails: `flagged_tick`
panics (`none`) instead of skipping the out-of-bounds neighbor. -/
theorem flagged_tick_right_edge_fails :
    flaggedTick worldRightEdge [] 1 = none := by decide

/-- C2: an active emitting cell whose connection set is empty is not
treated as inert — after already subtracting `running_sum` from `pending`,
`flagged_tick` computes `signal_sum / conns.len()` with `conns.len() = 0`,
a `u16` division by zero, which panics (`none`). -/
theorem flagged_tick_empty_conns_fails :
    flaggedTick worldLoneBrick [] 4 = none := by decide

/-- C2 contrast: the same center cell processed as non-emitting (worklist
semantics aside, an `Air`-typed cell) is a no-op, showing the failure above
comes from the emitting path. -/
theorem flagged_tick_non_emitting_noop :
    flaggedTick worldLoneBrick [] 0 = some (worldLoneBrick, []) := by decide

/-- C3 counterexample: after the reachable 177-tick run `overflowSteps`,
cell 0 stores `signal_sum = 2164` while its four history slots sum to
`67700` (= 2164 + 2^16): the claimed `running_sum = Σ history[i]` equality
fails once the `u16` additions have wrapped. -/
theorem ring_invariant_counterexample :
    (run 5 1 overflowSteps).isSome = true ∧
    (overflowWorld.tiles.getD 0 default).signal_sum = 2164 ∧
    (overflowWorld.tiles.getD 0 default).signals.sum = 67700 ∧
    (overflowWorld.tiles.getD 0 default).signal_sum ≠
      (overflowWorld.tiles.getD 0 default).signals.sum := by decide

/-- C5: in the reachable state after `overflowSteps`, the next decay shift
(tick 177, ring slot (177 / 8) % 4 = 2) executes
`signal_sum -= signals[2]` with minuend 2164 < subtrahend 17600: the 16-bit
unsigned subtraction wraps below zero (a debug build panics), refuting the
claimed non-negativity invariant. -/
theorem decay_shift_subtraction_wraps :
    (run 5 1 overflowSteps).isSome = true ∧
    (177 / SIGNAL_BACKLOG_UNIT) % SIGNAL_BACKLOG_LENGTH = 2 ∧
    (overflowWorld.tiles.getD 0 default).signal_sum = 2164 ∧
    (overflowWorld.tiles.getD 0 default).signals.getD 2 0 = 17600 ∧
    (overflowWorld.tiles.getD 0 default).signal_sum <
      (overflowWorld.tiles.getD 0 default).signals.getD 2 0 := by decide

/-- C6 counterexample: processing the one-element worklist [4] pays the
center Brick's `running_sum = 10` out once (its pending drops 10 → 0, the
neighbor at 5 gains 10), but the duplicated worklist [4, 4] pays out twice
(pending wraps to 65526, the neighbor gains 20): duplicates are not
harmless. -/
theorem duplicate_worklist_not_harmless :
    phaseBAux worldTwoBricks [] [4, 4] ≠ phaseBAux worldTwoBricks [] [4] ∧
    (phaseBAux worldTwoBricks [] [4]).map
        (fun p => ((p.1.tiles.getD 4 default).next_signal,
                   (p.1.tiles.getD 5 default).next_signal)) = some (0, 10) ∧
    (phaseBAux worldTwoBricks [] [4, 4]).map
        (fun p => ((p.1.tiles.getD 4 default).next_signal,
                   (p.1.tiles.getD 5 default).next_signal)) = some (65526, 20) := by
  decide

/-! ## C8: Phase A never clears pending and is stable within a window -/

theorem preTickTile_next_signal (s : Nat) (t : Tile) :
    (preTickTile s t).next_signal = t.next_signal := rfl

theorem preTickTile_idem (s : Nat) (t : Tile) (hs : s < t.signals.length)
    (hn : t.next_signal < M) :
    preTickTile s (preTickTile s t) = preTickTile s t := by
  unfold preTickTile
  simp only [getD_set_self t.signals s t.next_signal 0 (by simpa using hs), List.set_set]
  have hlt : ((t.signal_sum + M - t.signals.getD s 0) % M + t.next_signal) % M < M := by
    have : 0 < M := by decide
    exact Nat.mod_lt _ this
  rw [mod_sub_add_cancel _ _ hlt hn]

theorem next_getD_map (l : List Tile) (f : Tile → Tile)
    (hf : ∀ t, (f t).next_signal = t.next_signal) (i : Nat) :
    ((l.map f).getD i default).next_signal = (l.getD i default).next_signal := by
  by_cases hi : i < l.length
  · have h1 : (l.map f)[i]? = some (f (l.getD i default)) := by
      rw [List.getElem?_map, getElem?_eq_getD l i default hi]
      rfl
    have h2 := getD_lt_length (l.map f) i (f (l.getD i default)) default h1
    rw [h2.2, hf]
  · have hge : l.length ≤ i := by omega
    rw [List.getD_eq_default, List.getD_eq_default]
    · omega
    · simpa using hge

/-- C8: Phase A never clears pending (`pre_tick` leaves every cell's
`next_signal` unchanged), and for two ticks with the same decay-slot index
`(t / U) % W` a second `pre_tick` application is the identity on the
already-shifted world — in particular it leaves every `running_sum`
unchanged, subtracting the slot value it just wrote and re-adding the same
pending. -/
theorem pre_tick_same_slot_stable (w : World) (t t' : Nat)
    (hw : ∀ tile ∈ w.tiles, tile.signals.length = 4 ∧ tile.next_signal < M)
    (hs : (t / SIGNAL_BACKLOG_UNIT) % SIGNAL_BACKLOG_LENGTH
        = (t' / SIGNAL_BACKLOG_UNIT) % SIGNAL_BACKLOG_LENGTH) :
    (∀ i, ((w.pre_tick t).tiles.getD i default).next_signal
        = (w.tiles.getD i default).next_signal) ∧
    (w.pre_tick t).pre_tick t' = w.pre_tick t := by
  constructor
  · intro i
    simp only [World.pre_tick]
    exact next_getD_map w.tiles
      (preTickTile ((t / SIGNAL_BACKLOG_UNIT) % SIGNAL_BACKLOG_LENGTH))
      (fun tile => rfl) i
  · simp only [World.pre_tick]
    rw [← hs]
    simp only [List.map_map]
    have hcongr : w.tiles.map
        ((preTickTile ((t / SIGNAL_BACKLOG_UNIT) % SIGNAL_BACKLOG_LENGTH)) ∘
         (preTickTile ((t / SIGNAL_BACKLOG_UNIT) % SIGNAL_BACKLOG_LENGTH)))
        = w.tiles.map (preTickTile ((t / SIGNAL_BACKLOG_UNIT) % SIGNAL_BACKLOG_LENGTH)) := by
      apply List.map_congr_left
      intro tile htile
      have h1 := (hw tile htile).1
      have h2 := (hw tile htile).2
      have hslot : (t / SIGNAL_BACKLOG_UNIT) % SIGNAL_BACKLOG_LENGTH < 4 := by
        have : SIGNAL_BACKLOG_LENGTH = 4 := rfl
        rw [this]
        exact Nat.mod_lt _ (by decide)
      exact preTickTile_idem _ tile (by omega) h2
    rw [hcongr]

/-- Witness for C8 at the concrete two-Brick world with ticks 0 and 7
(both in decay window 0). -/
theorem pre_tick_same_slot_stable_witness :
    (∀ i, ((worldTwoBricks.pre_tick 0).tiles.getD i default).next_signal
        = (worldTwoBricks.tiles.getD i default).next_signal) ∧
    (worldTwoBricks.pre_tick 0).pre_tick 7 = worldTwoBricks.pre_tick 0 :=
  pre_tick_same_slot_stable worldTwoBricks 0 7 (by decide) (by decide)

/-! ## Phase B effect machinery (shared by several claims) -/

theorem drop_tail_succ {α} (l : List α) (n : Nat) :
    l.tail.drop n = l.drop (n + 1) := by
  rw [← List.drop_one, List.drop_drop]
  congr 1
  omega

theorem modifyTile_spec (w : World) (x y : Nat) (f : Tile → Tile) (w2 : World)
    (h : w.modifyTile x y f = some w2) :
    ∃ o, w.dim.xy_offset x y = some o ∧ o < w.tiles.length ∧
      w2 = { w with tiles := w.tiles.set o (f (w.tiles.getD o default)) } := by
  unfold World.modifyTile at h
  cases hxy : w.dim.xy_offset x y with
  | none => rw [hxy] at h; exact Option.noConfusion h
  | some o =>
    rw [hxy] at h
    dsimp only at h
    by_cases ho : o < w.tiles.length
    · rw [if_pos ho] at h
      exact ⟨o, rfl, ho, ((Option.some.injEq _ _).mp h).symm⟩
    · rw [if_neg ho] at h; exact Option.noConfusion h

/-- If both `checked_add_signed` probes of a side succeed, the reached
coordinates are `sideCoord`, and sides 1/3 certify `1 ≤ x` / `1 ≤ y`. -/
theorem checkedAdd_side (x y side x2 y2 : Nat)
    (hx : checkedAddSigned x (sidesEnum.getD side (0, 0, 0)).2.1 = some x2)
    (hy : checkedAddSigned y (sidesEnum.getD side (0, 0, 0)).2.2 = some y2) :
    (x2, y2) = sideCoord x y side ∧ (side = 1 → 1 ≤ x) ∧ (side = 3 → 1 ≤ y) := by
  rcases side with _ | _ | _ | _ | side
  · rw [show (sidesEnum.getD 0 (0, 0, 0)).2.1 = 1 from rfl, checkedAddSigned_one] at hx
    rw [show (sidesEnum.getD 0 (0, 0, 0)).2.2 = 0 from rfl, checkedAddSigned_zero] at hy
    refine ⟨?_, by omega, by omega⟩
    rw [← (Option.some.injEq _ _).mp hx, ← (Option.some.injEq _ _).mp hy]
    rfl
  · rw [show (sidesEnum.getD 1 (0, 0, 0)).2.1 = -1 from rfl, checkedAddSigned_neg_one] at hx
    rw [show (sidesEnum.getD 1 (0, 0, 0)).2.2 = 0 from rfl, checkedAddSigned_zero] at hy
    by_cases hx0 : x = 0
    · rw [if_pos hx0] at hx; exact Option.noConfusion hx
    · rw [if_neg hx0] at hx
      refine ⟨?_, fun _ => by omega, by omega⟩
      rw [← (Option.some.injEq _ _).mp hx, ← (Option.some.injEq _ _).mp hy]
      rfl
  · rw [show (sidesEnum.getD 2 (0, 0, 0)).2.1 = 0 from rfl, checkedAddSigned_zero] at hx
    rw [show (sidesEnum.getD 2 (0, 0, 0)).2.2 = 1 from rfl, checkedAddSigned_one] at hy
    refine ⟨?_, by omega, by omega⟩
    rw [← (Option.some.injEq _ _).mp hx, ← (Option.some.injEq _ _).mp hy]
    rfl
  · rw [show (sidesEnum.getD 3 (0, 0, 0)).2.1 = 0 from rfl, checkedAddSigned_zero] at hx
    rw [show (sidesEnum.getD 3 (0, 0, 0)).2.2 = -1 from rfl, checkedAddSigned_neg_one] at hy
    by_cases hy0 : y = 0
    · rw [if_pos hy0] at hy; exact Option.noConfusion hy
    · rw [if_neg hy0] at hy
      refine ⟨?_, by omega, fun _ => by omega⟩
      rw [← (Option.some.injEq _ _).mp hx, ← (Option.some.injEq _ _).mp hy]
      rfl
  · have hd : sidesEnum.getD (side + 4) (0, 0, 0) = (0, 0, 0) := by
      apply List.getD_eq_default
      show sidesEnum.length ≤ side + 4
      simp [sidesEnum]
    rw [hd] at hx hy
    rw [show ((0, 0, 0) : Nat × Int × Int).2.1 = 0 from rfl, checkedAddSigned_zero] at hx
    rw [show ((0, 0, 0) : Nat × Int × Int).2.2 = 0 from rfl, checkedAddSigned_zero] at hy
    refine ⟨?_, by omega, by omega⟩
    rw [← (Option.some.injEq _ _).mp hx, ← (Option.some.injEq _ _).mp hy]
    rfl

theorem xy_offset_some (d : Dim) (x y o : Nat) (h : d.xy_offset x y = some o) :
    x < d.width ∧ y < d.height ∧ o = x + y * d.width := by
  unfold Dim.xy_offset at h
  by_cases hx : x < d.width
  · rw [if_pos hx] at h
    by_cases hy : y < d.height
    · rw [if_pos hy] at h
      exact ⟨hx, hy, ((Option.some.injEq _ _).mp h).symm⟩
    · rw [if_neg hy] at h; exact Option.noConfusion h
  · rw [if_neg hx] at h; exact Option.noConfusion h

theorem shareUpd_proj (per : Nat) (t : Tile) :
    (shareUpd per t).ty = t.ty ∧ (shareUpd per t).signals = t.signals ∧
    (shareUpd per t).signal_sum = t.signal_sum := by
  unfold shareUpd
  by_cases ha : t.ty.absorbs
  · rw [if_pos ha]; exact ⟨rfl, rfl, rfl⟩
  · rw [if_neg ha]; exact ⟨rfl, rfl, rfl⟩

theorem set_proj_getD (l : List Tile) (o : Nat) (f : Tile → Tile)
    (hf : ∀ t, (f t).ty = t.ty ∧ (f t).signals = t.signals ∧
      (f t).signal_sum = t.signal_sum) (r : Nat) :
    ((l.set o (f (l.getD o default))).getD r default).ty = (l.getD r default).ty ∧
    ((l.set o (f (l.getD o default))).getD r default).signals = (l.getD r default).signals ∧
    ((l.set o (f (l.getD o default))).getD r default).signal_sum
      = (l.getD r default).signal_sum := by
  by_cases hr : o = r
  · subst hr
    by_cases ho : o < l.length
    · rw [getD_set_self _ _ _ _ ho]; exact hf _
    · rw [List.set_eq_of_length_le (by omega)]
      exact ⟨rfl, rfl, rfl⟩
  · rw [getD_set_ne _ _ _ _ _ hr]; exact ⟨rfl, rfl, rfl⟩

/-- All simulation state the payout loop leaves alone: it can only touch
the `next_signal` of tiles and append pushes to `next_flagged_tiles`, it
consumes one flip per connection, and the pushed offsets are `pushesOf`. -/
theorem payoutAux_effect (per x y : Nat) (cs : List Nat) :
    ∀ (w : World) (flips : List Bool) (w9 : World) (flips9 : List Bool),
      payoutAux per x y w flips cs = some (w9, flips9) →
      w9.dim = w.dim ∧ w9.flagged_tiles = w.flagged_tiles ∧ w9.cursor = w.cursor ∧
      w9.tiles.length = w.tiles.length ∧
      flips9 = flips.drop cs.length ∧
      w9.next_flagged_tiles = w.next_flagged_tiles ++ pushesOf w.dim x y cs flips ∧
      ∀ q, (w9.tiles.getD q default).ty = (w.tiles.getD q default).ty ∧
           (w9.tiles.getD q default).signals = (w.tiles.getD q default).signals ∧
           (w9.tiles.getD q default).signal_sum = (w.tiles.getD q default).signal_sum := by
  induction cs with
  | nil =>
    intro w flips w9 flips9 h
    simp only [payoutAux] at h
    have he := (Option.some.injEq _ _).mp h
    have hw : w = w9 := congrArg Prod.fst he
    have hf : flips = flips9 := congrArg Prod.snd he
    subst hw
    subst hf
    exact ⟨rfl, rfl, rfl, rfl, rfl, by simp [pushesOf], fun q => ⟨rfl, rfl, rfl⟩⟩
  | cons side rest ih =>
    intro w flips w9 flips9 h
    rcases hse : sidesEnum.getD side (0, 0, 0) with ⟨s0, dx, dy⟩
    simp only [payoutAux, hse] at h
    cases hcx : checkedAddSigned x dx with
    | none => rw [hcx] at h; dsimp only at h; exact Option.noConfusion h
    | some x2 =>
      cases hcy : checkedAddSigned y dy with
      | none => rw [hcx, hcy] at h; dsimp only at h; exact Option.noConfusion h
      | some y2 =>
        rw [hcx, hcy] at h
        dsimp only at h
        cases hm : w.modifyTile x2 y2 (shareUpd per) with
        | none => rw [hm] at h; exact Option.noConfusion h
        | some w1 =>
          rw [hm] at h
          dsimp only at h
          obtain ⟨o, hxy, ho, hw1⟩ := modifyTile_spec _ _ _ _ _ hm
          have hside := checkedAdd_side x y side x2 y2
            (by rw [hse]; exact hcx) (by rw [hse]; exact hcy)
          have hcoord : (x2, y2) = sideCoord x y side := hside.1
          have hdim1 : w1.dim = w.dim := by rw [hw1]
          have hlen1 : w1.tiles.length = w.tiles.length := by
            rw [hw1]; exact List.length_set ..
          have htiles1 : ∀ r, ((w1.tiles.getD r default).ty = (w.tiles.getD r default).ty ∧
              (w1.tiles.getD r default).signals = (w.tiles.getD r default).signals ∧
              (w1.tiles.getD r default).signal_sum = (w.tiles.getD r default).signal_sum) := by
            intro r
            rw [hw1]
            exact set_proj_getD w.tiles o (shareUpd per) (shareUpd_proj per) r
          have hflag1 : w1.flagged_tiles = w.flagged_tiles := by rw [hw1]
          have hcur1 : w1.cursor = w.cursor := by rw [hw1]
          have hnext1 : w1.next_flagged_tiles = w.next_flagged_tiles := by rw [hw1]
          cases hfl : flips.headD false with
          | false =>
            rw [hfl] at h
            simp only [Bool.false_eq_true, if_false] at h
            obtain ⟨h1, h2, h3, h4, h5, h6, h7⟩ := ih w1 flips.tail w9 flips9 h
            refine ⟨h1.trans hdim1, h2.trans hflag1, h3.trans hcur1,
              h4.trans hlen1, ?_, ?_, ?_⟩
            · rw [h5, drop_tail_succ]
              rfl
            · rw [h6, hnext1, hdim1, pushesOf, hfl]
              simp only [Bool.false_eq_true, if_false, List.nil_append]
            · intro q
              obtain ⟨ha, hb, hc⟩ := h7 q
              obtain ⟨hd, he2, hf2⟩ := htiles1 q
              exact ⟨ha.trans hd, hb.trans he2, hc.trans hf2⟩
          | true =>
            rw [hfl] at h
            simp only [if_true] at h
            cases hxy2 : w1.dim.xy_offset x2 y2 with
            | none =>
              rw [hxy2] at h
              exact Option.noConfusion h
            | some o2 =>
              rw [hxy2] at h
              have hmap : (Option.map (fun o =>
                  { w1 with next_flagged_tiles := w1.next_flagged_tiles ++ [o] }) (some o2))
                  = some { w1 with next_flagged_tiles := w1.next_flagged_tiles ++ [o2] } := rfl
              rw [hmap] at h
              dsimp only at h
              obtain ⟨h1, h2, h3, h4, h5, h6, h7⟩ := ih _ flips.tail w9 flips9 h
              have ho2 : o2 = sideOff w.dim x y side := by
                obtain ⟨hxb, hyb, hoeq⟩ := xy_offset_some _ _ _ _ hxy2
                rw [hoeq, hdim1]
                unfold sideOff
                rw [← hcoord]
              refine ⟨h1.trans hdim1, h2.trans hflag1, h3.trans hcur1,
                h4.trans hlen1, ?_, ?_, ?_⟩
              · rw [h5, drop_tail_succ]
                rfl
              · rw [h6]
                show w1.next_flagged_tiles ++ [o2] ++ _ = _
                rw [hnext1, ho2, hdim1, pushesOf, hfl]
                simp only [if_true, List.append_assoc, List.singleton_append]
              · intro q
                obtain ⟨ha, hb, hc⟩ := h7 q
                obtain ⟨hd, he2, hf2⟩ := htiles1 q
                exact ⟨ha.trans hd, hb.trans he2, hc.trans hf2⟩

theorem payAll_proj (sum : Nat) (t : Tile) :
    (payAll sum t).ty = t.ty ∧ (payAll sum t).signals = t.signals ∧
    (payAll sum t).signal_sum = t.signal_sum :=
  ⟨rfl, rfl, rfl⟩

theorem getTile_ty_congr (w w2 : World)
    (hdim : w2.dim = w.dim) (hlen : w2.tiles.length = w.tiles.length)
    (hty : ∀ q, (w2.tiles.getD q default).ty = (w.tiles.getD q default).ty)
    (x y : Nat) :
    (w2.getTile x y).map Tile.ty = (w.getTile x y).map Tile.ty := by
  unfold World.getTile
  rw [hdim]
  cases hxy : w.dim.xy_offset x y with
  | none => rfl
  | some o =>
    dsimp only
    by_cases ho : o < w.tiles.length
    · rw [getElem?_eq_getD w.tiles o default ho,
        getElem?_eq_getD w2.tiles o default (by omega)]
      dsimp only [Option.map]
      rw [hty o]
    · rw [List.getElem?_eq_none (by omega), List.getElem?_eq_none (by omega)]

theorem connsAux_congr (w w2 : World)
    (hdim : w2.dim = w.dim) (hlen : w2.tiles.length = w.tiles.length)
    (hty : ∀ q, (w2.tiles.getD q default).ty = (w.tiles.getD q default).ty)
    (x y : Nat) :
    ∀ l, connsAux w2 x y l = connsAux w x y l := by
  intro l
  induction l with
  | nil => rfl
  | cons e rest ih =>
    rcases e with ⟨side, dx, dy⟩
    rw [connsAux, connsAux]
    cases hcx : checkedAddSigned x dx with
    | none => dsimp only; exact ih
    | some x2 =>
      cases hcy : checkedAddSigned y dy with
      | none => dsimp only; exact ih
      | some y2 =>
        dsimp only
        have hmap := getTile_ty_congr w w2 hdim hlen hty x2 y2
        cases hg : w.getTile x2 y2 with
        | none =>
          rw [hg] at hmap
          cases hg2 : w2.getTile x2 y2 with
          | none => rfl
          | some t2 => rw [hg2] at hmap; exact Option.noConfusion hmap
        | some t =>
          rw [hg] at hmap
          cases hg2 : w2.getTile x2 y2 with
          | none => rw [hg2] at hmap; exact Option.noConfusion hmap
          | some t2 =>
            rw [hg2] at hmap
            have hty2 : t2.ty = t.ty := by
              have := (Option.some.injEq _ _).mp hmap
              exact this
            dsimp only
            rw [ih, hty2]

theorem tilePushes_congr (w w2 : World)
    (hdim : w2.dim = w.dim) (hlen : w2.tiles.length = w.tiles.length)
    (hty : ∀ q, (w2.tiles.getD q default).ty = (w.tiles.getD q default).ty)
    (flips : List Bool) (o : Nat) :
    tilePushes w2 flips o = tilePushes w flips o := by
  unfold tilePushes
  rw [hdim]
  cases hxy : w.dim.offset_xy o with
  | none => rfl
  | some xy =>
    rcases xy with ⟨x, y⟩
    dsimp only
    by_cases ho : o < w.tiles.length
    · rw [getElem?_eq_getD w.tiles o default ho,
        getElem?_eq_getD w2.tiles o default (by omega)]
      dsimp only
      rw [hty o]
      by_cases he : (w.tiles.getD o default).ty.emits
      · rw [if_pos he, if_pos he, connsAux_congr w w2 hdim hlen hty x y sidesEnum]
      · rw [if_neg he, if_neg he]
    · rw [List.getElem?_eq_none (by omega), List.getElem?_eq_none (by omega)]

theorem worklistPushes_congr (w w2 : World)
    (hdim : w2.dim = w.dim) (hlen : w2.tiles.length = w.tiles.length)
    (hty : ∀ q, (w2.tiles.getD q default).ty = (w.tiles.getD q default).ty)
    (wl : List Nat) : ∀ flips, worklistPushes w2 flips wl = worklistPushes w flips wl := by
  induction wl with
  | nil => intro flips; rfl
  | cons o rest ih =>
    intro flips
    rw [worklistPushes, worklistPushes, tilePushes_congr w w2 hdim hlen hty flips o, ih]

/-- One Phase B work item: it preserves dim, the active worklist, cursor,
tile count, every tile's type / history / running sum; it appends exactly
`tilePushes` to the next worklist and leaves the flip oracle at the
`tilePushes` remainder. -/
theorem flaggedTick_effect (w : World) (flips : List Bool) (o : Nat)
    (w9 : World) (flips9 : List Bool)
    (h : flaggedTick w flips o = some (w9, flips9)) :
    w9.dim = w.dim ∧ w9.flagged_tiles = w.flagged_tiles ∧ w9.cursor = w.cursor ∧
    w9.tiles.length = w.tiles.length ∧
    flips9 = (tilePushes w flips o).2 ∧
    w9.next_flagged_tiles = w.next_flagged_tiles ++ (tilePushes w flips o).1 ∧
    ∀ q, (w9.tiles.getD q default).ty = (w.tiles.getD q default).ty ∧
         (w9.tiles.getD q default).signals = (w.tiles.getD q default).signals ∧
         (w9.tiles.getD q default).signal_sum = (w.tiles.getD q default).signal_sum := by
  unfold flaggedTick at h
  unfold tilePushes
  cases hxy : w.dim.offset_xy o with
  | none => rw [hxy] at h; exact Option.noConfusion h
  | some xy =>
    rcases xy with ⟨x, y⟩
    rw [hxy] at h
    dsimp only at h ⊢
    cases hto : w.tiles[o]? with
    | none => rw [hto] at h; exact Option.noConfusion h
    | some tile =>
      rw [hto] at h
      dsimp only at h ⊢
      by_cases he : tile.ty.emits
      · rw [if_pos he] at h ⊢
        cases hc : connsAux w x y sidesEnum with
        | none => rw [hc] at h; exact Option.noConfusion h
        | some conns =>
          rw [hc] at h
          dsimp only at h ⊢
          cases hm : w.modifyTile x y (payAll tile.signal_sum) with
          | none => rw [hm] at h; exact Option.noConfusion h
          | some w1 =>
            rw [hm] at h
            dsimp only at h
            cases conns with
            | nil => exact Option.noConfusion h
            | cons c cs =>
              dsimp only at h
              obtain ⟨o1, hxy1, ho1, hw1⟩ := modifyTile_spec _ _ _ _ _ hm
              have hdim1 : w1.dim = w.dim := by rw [hw1]
              have hlen1 : w1.tiles.length = w.tiles.length := by
                rw [hw1]; exact List.length_set ..
              have hflag1 : w1.flagged_tiles = w.flagged_tiles := by rw [hw1]
              have hnext1 : w1.next_flagged_tiles = w.next_flagged_tiles := by rw [hw1]
              have hcur1 : w1.cursor = w.cursor := by rw [hw1]
              have htiles1 : ∀ r, ((w1.tiles.getD r default).ty = (w.tiles.getD r default).ty ∧
                  (w1.tiles.getD r default).signals = (w.tiles.getD r default).signals ∧
                  (w1.tiles.getD r default).signal_sum = (w.tiles.getD r default).signal_sum) := by
                intro r
                rw [hw1]
                exact set_proj_getD w.tiles o1 (payAll tile.signal_sum)
                  (payAll_proj tile.signal_sum) r
              obtain ⟨h1, h2, h3, h4, h5, h6, h7⟩ := payoutAux_effect _ x y _ _ _ _ _ h
              refine ⟨h1.trans hdim1, h2.trans hflag1, h3.trans hcur1, h4.trans hlen1,
                by rw [h5], by rw [h6, hnext1, hdim1], ?_⟩
              intro q
              obtain ⟨ha, hb, hc2⟩ := h7 q
              obtain ⟨hd, he2, hf2⟩ := htiles1 q
              exact ⟨ha.trans hd, hb.trans he2, hc2.trans hf2⟩
      · rw [if_neg he] at h ⊢
        have hp := (Option.some.injEq _ _).mp h
        have hw : w = w9 := congrArg Prod.fst hp
        have hf : flips = flips9 := congrArg Prod.snd hp
        subst hw
        subst hf
        exact ⟨rfl, rfl, rfl, rfl, rfl, by simp, fun q => ⟨rfl, rfl, rfl⟩⟩

/-- Phase B over a worklist: preserves dim, the active worklist, cursor,
tile count, and every tile's type / history / running sum; appends exactly
`worklistPushes` to the next worklist. -/
theorem phaseBAux_effect (wl : List Nat) :
    ∀ (w : World) (flips : List Bool) (w9 : World) (flips9 : List Bool),
      phaseBAux w flips wl = some (w9, flips9) →
      w9.dim = w.dim ∧ w9.flagged_tiles = w.flagged_tiles ∧ w9.cursor = w.cursor ∧
      w9.tiles.length = w.tiles.length ∧
      w9.next_flagged_tiles = w.next_flagged_tiles ++ worklistPushes w flips wl ∧
      ∀ q, (w9.tiles.getD q default).ty = (w.tiles.getD q default).ty ∧
           (w9.tiles.getD q default).signals = (w.tiles.getD q default).signals ∧
           (w9.tiles.getD q default).signal_sum = (w.tiles.getD q default).signal_sum := by
  induction wl with
  | nil =>
    intro w flips w9 flips9 h
    rw [phaseBAux] at h
    have hp := (Option.some.injEq _ _).mp h
    have hw : w = w9 := congrArg Prod.fst hp
    subst hw
    exact ⟨rfl, rfl, rfl, rfl, by simp [worklistPushes], fun q => ⟨rfl, rfl, rfl⟩⟩
  | cons o rest ih =>
    intro w flips w9 flips9 h
    rw [phaseBAux] at h
    cases hft : flaggedTick w flips o with
    | none => rw [hft] at h; exact Option.noConfusion h
    | some p =>
      rcases p with ⟨w1, flips1⟩
      rw [hft] at h
      dsimp only at h
      obtain ⟨h1, h2, h3, h4, h5, h6, h7⟩ := flaggedTick_effect _ _ _ _ _ hft
      obtain ⟨g1, g2, g3, g4, g5, g6⟩ := ih w1 flips1 w9 flips9 h
      have hcongr : worklistPushes w1 flips1 rest = worklistPushes w flips1 rest :=
        worklistPushes_congr w w1 h1 h4 (fun q => (h7 q).1) rest flips1
      refine ⟨g1.trans h1, g2.trans h2, g3.trans h3, g4.trans h4, ?_, ?_⟩
      · rw [g5, hcongr, h6, worklistPushes, ← h5, List.append_assoc]
      · intro q
        obtain ⟨ha, hb, hc⟩ := g6 q
        obtain ⟨hd, he, hf⟩ := h7 q
        exact ⟨ha.trans hd, hb.trans he, hc.trans hf⟩

/-! ## Phase A and Phase C shape lemmas, and the tick-level claims -/

theorem proj_getD_map {β : Type} (p : Tile → β) (l : List Tile) (f : Tile → Tile)
    (hf : ∀ t, p (f t) = p t) (i : Nat) :
    p ((l.map f).getD i default) = p (l.getD i default) := by
  by_cases hi : i < l.length
  · have h1 : (l.map f)[i]? = some (f (l.getD i default)) := by
      rw [List.getElem?_map, getElem?_eq_getD l i default hi]
      rfl
    have h2 := getD_lt_length (l.map f) i (f (l.getD i default)) default h1
    rw [h2.2, hf]
  · rw [List.getD_eq_default, List.getD_eq_default]
    · omega
    · simpa using (by omega : l.length ≤ i)

theorem pre_tick_shape (w : World) (now : Nat) :
    (w.pre_tick now).dim = w.dim ∧
    (w.pre_tick now).flagged_tiles = w.flagged_tiles ∧
    (w.pre_tick now).next_flagged_tiles = w.next_flagged_tiles ∧
    (w.pre_tick now).cursor = w.cursor ∧
    (w.pre_tick now).tiles.length = w.tiles.length ∧
    ∀ q, ((w.pre_tick now).tiles.getD q default).ty = (w.tiles.getD q default).ty := by
  refine ⟨rfl, rfl, rfl, rfl, ?_, ?_⟩
  · simp [World.pre_tick]
  · intro q
    simp only [World.pre_tick]
    exact proj_getD_map Tile.ty w.tiles
      (preTickTile ((now / SIGNAL_BACKLOG_UNIT) % SIGNAL_BACKLOG_LENGTH))
      (fun t => rfl) q

theorem random_tick_effect (w : World) (o : Nat) (w9 : World)
    (h : w.random_tick o = some w9) :
    o < w.tiles.length ∧
    w9.dim = w.dim ∧ w9.flagged_tiles = w.flagged_tiles ∧
    w9.next_flagged_tiles = w.next_flagged_tiles ∧ w9.cursor = w.cursor ∧
    w9.tiles.length = w.tiles.length ∧
    w9.tiles.getD o default = bumpTile (w.tiles.getD o default) ∧
    ∀ q, q ≠ o → w9.tiles.getD q default = w.tiles.getD q default := by
  unfold World.random_tick at h
  by_cases ho : o < w.tiles.length
  · rw [if_pos ho] at h
    have hw9 := ((Option.some.injEq _ _).mp h).symm
    subst hw9
    refine ⟨ho, rfl, rfl, rfl, rfl, List.length_set .., ?_, ?_⟩
    · show (w.tiles.set o _).getD o default = _
      rw [getD_set_self _ _ _ _ ho]
    · intro q hq
      show (w.tiles.set o _).getD q default = _
      rw [getD_set_ne _ _ _ _ _ (fun he => hq he.symm)]
  · rw [if_neg ho] at h
    exact Option.noConfusion h

/-- Canonical unfolding of `World.tick` for proofs. -/
theorem tick_eq (w : World) (now : Nat) (flips : List Bool) (sample : List Nat) :
    w.tick now flips sample =
      match phaseBAux { w.pre_tick now with
          flagged_tiles := (w.pre_tick now).next_flagged_tiles,
          next_flagged_tiles := [] } flips (w.pre_tick now).flagged_tiles with
      | none => none
      | some (w2, _) =>
        if ValidSample w2.tiles.length sample then
          phaseCAux { w2 with flagged_tiles := w2.next_flagged_tiles, next_flagged_tiles := [] } sample
        else none := rfl

theorem phaseCAux_shape (sample : List Nat) :
    ∀ (w w9 : World), phaseCAux w sample = some w9 →
      w9.dim = w.dim ∧ w9.flagged_tiles = w.flagged_tiles ∧
      w9.next_flagged_tiles = w.next_flagged_tiles ∧ w9.cursor = w.cursor ∧
      w9.tiles.length = w.tiles.length := by
  induction sample with
  | nil =>
    intro w w9 h
    rw [phaseCAux] at h
    have hw := (Option.some.injEq _ _).mp h
    subst hw
    exact ⟨rfl, rfl, rfl, rfl, rfl⟩
  | cons o rest ih =>
    intro w w9 h
    rw [phaseCAux] at h
    cases hr : w.random_tick o with
    | none => rw [hr] at h; exact Option.noConfusion h
    | some w1 =>
      rw [hr] at h
      obtain ⟨_, e1, e2, e3, e4, e5, _, _⟩ := random_tick_effect _ _ _ hr
      obtain ⟨g1, g2, g3, g4, g5⟩ := ih w1 w9 h
      exact ⟨g1.trans e1, g2.trans e2, g3.trans e3, g4.trans e4, g5.trans e5⟩

theorem phaseCAux_effect (sample : List Nat) :
    ∀ (w : World), sample.Nodup → (∀ o ∈ sample, o < w.tiles.length) →
      ∃ w9, phaseCAux w sample = some w9 ∧
        w9.dim = w.dim ∧ w9.flagged_tiles = w.flagged_tiles ∧
        w9.next_flagged_tiles = w.next_flagged_tiles ∧ w9.cursor = w.cursor ∧
        w9.tiles.length = w.tiles.length ∧
        (∀ q, q ∉ sample → w9.tiles.getD q default = w.tiles.getD q default) ∧
        (∀ q ∈ sample, w9.tiles.getD q default
          = bumpTile (w.tiles.getD q default)) := by
  induction sample with
  | nil =>
    intro w _ _
    exact ⟨w, rfl, rfl, rfl, rfl, rfl, rfl, fun q _ => rfl, fun q hq => absurd hq (by simp)⟩
  | cons o rest ih =>
    intro w hnd hin
    have hno : o ∉ rest := (List.nodup_cons.mp hnd).1
    have hndr : rest.Nodup := (List.nodup_cons.mp hnd).2
    have ho : o < w.tiles.length := hin o (by simp)
    have hr : w.random_tick o = some { w with tiles := w.tiles.set o (bumpTile (w.tiles.getD o default)) } := by
      unfold World.random_tick
      rw [if_pos ho]
    set w1 : World := { w with tiles := w.tiles.set o (bumpTile (w.tiles.getD o default)) } with hw1
    have hlen1 : w1.tiles.length = w.tiles.length := List.length_set ..
    obtain ⟨w9, hrun, g1, g2, g3, g4, g5, g6, g7⟩ := ih w1 hndr
      (fun q hq => by rw [hlen1]; exact hin q (by simp [hq]))
    refine ⟨w9, ?_, g1, g2, g3, g4, g5.trans hlen1, ?_, ?_⟩
    · rw [phaseCAux, hr]
      exact hrun
    · intro q hq
      have hq1 : q ≠ o := fun he => hq (by simp [he])
      have hq2 : q ∉ rest := fun he => hq (by simp [he])
      rw [g6 q hq2]
      show (w.tiles.set o _).getD q default = _
      rw [getD_set_ne _ _ _ _ _ (fun he => hq1 he.symm)]
    · intro q hq
      rcases List.mem_cons.mp hq with hq | hq
      · subst hq
        rw [g6 q hno]
        show (w.tiles.set q _).getD q default = _
        rw [getD_set_self _ _ _ _ ho]
      · have hq1 : q ≠ o := fun he => hno (he ▸ hq)
        rw [g7 q hq]
        have : w1.tiles.getD q default = w.tiles.getD q default := by
          show (w.tiles.set o _).getD q default = _
          rw [getD_set_ne _ _ _ _ _ (fun he => hq1 he.symm)]
        rw [this]

/-- C9: Phase C adds `weight(kind)` (100 for `Brick`/Source, 0 for
`Air`/Empty and `Bedrock`) to the pending of exactly the sampled offsets
— which, by `rand`'s sampling contract as enforced in `tick`, are
`⌊total·20/100⌋` distinct in-range offsets — and changes nothing else: no
other cell, and no other field of a sampled cell. -/
theorem replenishment_effect (w : World) (sample : List Nat)
    (hnd : sample.Nodup) (hin : ∀ o ∈ sample, o < w.tiles.length) :
    (∃ w9, phaseCAux w sample = some w9 ∧
      w9.dim = w.dim ∧ w9.flagged_tiles = w.flagged_tiles ∧
      w9.next_flagged_tiles = w.next_flagged_tiles ∧ w9.cursor = w.cursor ∧
      w9.tiles.length = w.tiles.length ∧
      (∀ q, q ∉ sample → w9.tiles.getD q default = w.tiles.getD q default) ∧
      (∀ q ∈ sample, w9.tiles.getD q default
        = bumpTile (w.tiles.getD q default))) ∧
    (TileType.weight .Brick = 100 ∧ TileType.weight .Air = 0 ∧
      TileType.weight .Bedrock = 0) ∧
    (∀ now flips w9, w.tick now flips sample = some w9 →
      sample.length = w.tiles.length * RANDOM_TICK_PERCENTAGE / 100) := by
  refine ⟨phaseCAux_effect sample w hnd hin, ⟨rfl, rfl, rfl⟩, ?_⟩
  intro now flips w9 h
  rw [tick_eq] at h
  cases hb : phaseBAux { w.pre_tick now with
      flagged_tiles := (w.pre_tick now).next_flagged_tiles,
      next_flagged_tiles := [] } flips (w.pre_tick now).flagged_tiles with
  | none => rw [hb] at h; exact Option.noConfusion h
  | some p =>
    rcases p with ⟨w2, flips2⟩
    rw [hb] at h
    dsimp only at h
    obtain ⟨_, _, _, hlen2, _, _⟩ := phaseBAux_effect _ _ _ _ _ hb
    have hlen0 : (w.pre_tick now).tiles.length = w.tiles.length :=
      (pre_tick_shape w now).2.2.2.2.1
    by_cases hv : ValidSample w2.tiles.length sample
    · have hs := hv.1
      rw [hlen2] at hs
      have hmid : ({ w.pre_tick now with
          flagged_tiles := (w.pre_tick now).next_flagged_tiles,
          next_flagged_tiles := [] } : World).tiles.length
            = (w.pre_tick now).tiles.length := rfl
      rw [hmid, hlen0] at hs
      exact hs
    · rw [if_neg hv] at h
      exact Option.noConfusion h

/-- Witness for C9 at a concrete world and two-element sample. -/
theorem replenishment_effect_witness :
    (∃ w9, phaseCAux worldTwoBricks [0, 4] = some w9 ∧
      w9.dim = worldTwoBricks.dim ∧ w9.flagged_tiles = worldTwoBricks.flagged_tiles ∧
      w9.next_flagged_tiles = worldTwoBricks.next_flagged_tiles ∧
      w9.cursor = worldTwoBricks.cursor ∧
      w9.tiles.length = worldTwoBricks.tiles.length ∧
      (∀ q, q ∉ [0, 4] → w9.tiles.getD q default = worldTwoBricks.tiles.getD q default) ∧
      (∀ q ∈ [0, 4], w9.tiles.getD q default
        = bumpTile (worldTwoBricks.tiles.getD q default))) ∧
    (TileType.weight .Brick = 100 ∧ TileType.weight .Air = 0 ∧
      TileType.weight .Bedrock = 0) ∧
    (∀ now flips w9, worldTwoBricks.tick now flips [0, 4] = some w9 →
      ([0, 4] : List Nat).length
        = worldTwoBricks.tiles.length * RANDOM_TICK_PERCENTAGE / 100) :=
  replenishment_effect worldTwoBricks [0, 4] (by decide) (by decide)

/-- C7: the active worklist is empty after construction, and a successful
tick leaves `next_flagged_tiles` empty and an active worklist holding
exactly the offsets Phase B pushed this tick (`worklistPushes` of the
worklist it processed) — nothing from earlier ticks survives. -/
theorem worklist_evolution (a b : Nat) (w : World) (now : Nat)
    (flips : List Bool) (sample : List Nat) (w9 : World) :
    ((World.new a b).flagged_tiles = [] ∧ (World.new a b).next_flagged_tiles = []) ∧
    (w.tick now flips sample = some w9 →
      w9.next_flagged_tiles = [] ∧
      w9.flagged_tiles = worklistPushes (w.pre_tick now) flips w.flagged_tiles) := by
  refine ⟨⟨rfl, rfl⟩, ?_⟩
  intro h
  rw [tick_eq] at h
  cases hb : phaseBAux { w.pre_tick now with
      flagged_tiles := (w.pre_tick now).next_flagged_tiles,
      next_flagged_tiles := [] } flips (w.pre_tick now).flagged_tiles with
  | none => rw [hb] at h; exact Option.noConfusion h
  | some p =>
    rcases p with ⟨w2, flips2⟩
    rw [hb] at h
    dsimp only at h
    by_cases hv : ValidSample w2.tiles.length sample
    · rw [if_pos hv] at h
      obtain ⟨c1, c2, c3, c4, c5⟩ := phaseCAux_shape sample _ _ h
      obtain ⟨b1, b2, b3, b4, b5, b6⟩ := phaseBAux_effect _ _ _ _ _ hb
      constructor
      · rw [c3]
      · rw [c2]
        show w2.next_flagged_tiles = _
        rw [b5]
        show [] ++ _ = _
        rw [List.nil_append]
        have hflag0 : (w.pre_tick now).flagged_tiles = w.flagged_tiles :=
          (pre_tick_shape w now).2.1
        rw [← hflag0]
        exact worklistPushes_congr (w.pre_tick now)
          { w.pre_tick now with flagged_tiles := (w.pre_tick now).next_flagged_tiles, next_flagged_tiles := [] }
          rfl rfl (fun q => rfl) (w.pre_tick now).flagged_tiles flips
    · rw [if_neg hv] at h
      exact Option.noConfusion h

/-- Witness for C7: a concrete tick in which the center Brick pays out and
flags its east neighbor (offset 5). -/
theorem worklist_evolution_witness :
    ((World.new 2 2).flagged_tiles = [] ∧ (World.new 2 2).next_flagged_tiles = []) ∧
    (((worldTwoBricksActive.tick 0 [true] [0]).getD
        (World.new 0 0)).next_flagged_tiles = [] ∧
      ((worldTwoBricksActive.tick 0 [true] [0]).getD
        (World.new 0 0)).flagged_tiles
        = worklistPushes (worldTwoBricksActive.pre_tick 0) [true]
            worldTwoBricksActive.flagged_tiles) := by
  have h := (worklist_evolution 2 2 worldTwoBricksActive 0 [true] [0]
    ((worldTwoBricksActive.tick 0 [true] [0]).getD (World.new 0 0))).2 (by decide)
  exact ⟨(worklist_evolution 2 2 worldTwoBricksActive 0 [true] [0]
    ((worldTwoBricksActive.tick 0 [true] [0]).getD (World.new 0 0))).1, h⟩

/-! ## C6 (amended): duplicates of non-emitting offsets are harmless -/

theorem flaggedTick_non_emitting (w : World) (flips : List Bool) (o x y : Nat)
    (tile : Tile) (ho : w.dim.offset_xy o = some (x, y))
    (ht : w.tiles[o]? = some tile) (he : tile.ty.emits = false) :
    flaggedTick w flips o = some (w, flips) := by
  unfold flaggedTick
  rw [ho]
  dsimp only
  rw [ht]
  dsimp only
  rw [if_neg (by rw [he]; exact Bool.false_ne_true)]

/-- C6 (amended): a duplicated worklist offset whose cell does not emit is
harmless — processing it is a no-op, so the duplicate occurrence leaves
Phase B's result unchanged.  (For an emitting cell with nonzero
`running_sum` each occurrence repeats the full payout, so duplicates are
not harmless in general — see the counterexample.) -/
theorem duplicate_non_emitting_harmless (w : World) (flips : List Bool)
    (o : Nat) (rest : List Nat) (x y : Nat) (tile : Tile)
    (ho : w.dim.offset_xy o = some (x, y))
    (ht : w.tiles[o]? = some tile) (he : tile.ty.emits = false) :
    phaseBAux w flips (o :: o :: rest) = phaseBAux w flips (o :: rest) := by
  have hft := flaggedTick_non_emitting w flips o x y tile ho ht he
  rw [phaseBAux, hft]

/-- Witness for the amended C6: duplicating the non-emitting offset 0
(`Air`) in front of the worklist [0, 4] changes nothing. -/
theorem duplicate_non_emitting_harmless_witness :
    phaseBAux worldTwoBricks [] [0, 0, 4] = phaseBAux worldTwoBricks [] [0, 4] :=
  duplicate_non_emitting_harmless worldTwoBricks [] 0 [4] 0 0 airTile
    (by decide) (by decide) (by decide)

/-! ## C3 (amended): the mod-2^16 ring invariant -/

theorem getD_mem {α} (l : List α) (s : Nat) (d : α) (h : s < l.length) :
    l.getD s d ∈ l := by
  have h2 : l.getD s d = l[s] := by simp [List.getD, List.getElem?_eq_getElem h]
  rw [h2]
  exact List.getElem_mem h

theorem worldInv_new (a b : Nat) : WorldInv (World.new a b) := by
  intro t ht
  have := (List.mem_replicate.mp ht).2
  subst this
  decide

theorem tileInv_preTick (s : Nat) (t : Tile) (hs : s < SIGNAL_BACKLOG_LENGTH)
    (h : TileInv t) : TileInv (preTickTile s t) := by
  obtain ⟨hl, hv, hn, hsum⟩ := h
  have hsl : s < t.signals.length := by rw [hl]; exact hs
  have hgm : t.signals.getD s 0 ∈ t.signals := getD_mem _ _ _ hsl
  have hgM : t.signals.getD s 0 < M := hv _ hgm
  have hgle : t.signals.getD s 0 ≤ t.signals.sum := getD_le_sum _ _ hsl
  have hset := sum_set_add t.signals s t.next_signal hsl
  refine ⟨?_, ?_, ?_, ?_⟩
  · show (t.signals.set s t.next_signal).length = _
    rw [List.length_set]
    exact hl
  · intro v hvm
    rcases List.mem_or_eq_of_mem_set hvm with hm | he
    · exact hv v hm
    · rw [he]; exact hn
  · exact hn
  · show ((t.signal_sum + M - t.signals.getD s 0) % M + t.next_signal) % M
      = (t.signals.set s t.next_signal).sum % M
    rw [hsum]
    have e1 : t.signals.sum % M + M - t.signals.getD s 0
        = t.signals.sum % M + (M - t.signals.getD s 0) := by omega
    rw [e1, Nat.mod_add_mod, Nat.add_assoc, Nat.mod_add_mod]
    have e2 : t.signals.sum + ((M - t.signals.getD s 0) + t.next_signal)
        = (t.signals.set s t.next_signal).sum + M := by omega
    rw [e2, Nat.add_mod_right]

theorem worldInv_preTick (w : World) (now : Nat) (h : WorldInv w) :
    WorldInv (w.pre_tick now) := by
  intro t ht
  simp only [World.pre_tick] at ht
  obtain ⟨t0, ht0, he⟩ := List.mem_map.mp ht
  subst he
  exact tileInv_preTick _ t0 (Nat.mod_lt _ (by decide)) (h t0 ht0)

theorem tileInv_payAll (sum : Nat) (t : Tile) (h : TileInv t) :
    TileInv (payAll sum t) := by
  obtain ⟨hl, hv, hn, hsum⟩ := h
  exact ⟨hl, hv, Nat.mod_lt _ (by decide), hsum⟩

theorem tileInv_shareUpd (per : Nat) (t : Tile) (h : TileInv t) :
    TileInv (shareUpd per t) := by
  obtain ⟨hl, hv, hn, hsum⟩ := h
  unfold shareUpd
  by_cases ha : t.ty.absorbs
  · rw [if_pos ha]; exact ⟨hl, hv, hn, hsum⟩
  · rw [if_neg ha]; exact ⟨hl, hv, Nat.mod_lt _ (by decide), hsum⟩

theorem tileInv_bumpTile (t : Tile) (h : TileInv t) : TileInv (bumpTile t) := by
  obtain ⟨hl, hv, hn, hsum⟩ := h
  exact ⟨hl, hv, Nat.mod_lt _ (by decide), hsum⟩

theorem worldInv_set (l : List Tile) (o : Nat) (f : Tile → Tile)
    (hf : ∀ t, TileInv t → TileInv (f t))
    (h : ∀ t ∈ l, TileInv t) :
    ∀ t ∈ l.set o (f (l.getD o default)), TileInv t := by
  intro t ht
  rcases List.mem_or_eq_of_mem_set ht with hm | he
  · exact h t hm
  · rw [he]
    apply hf
    by_cases ho : o < l.length
    · exact h _ (getD_mem l o default ho)
    · show TileInv (l.getD o default)
      rw [List.getD_eq_default _ _ (by omega)]
      decide

theorem worldInv_modifyTile (w : World) (x y : Nat) (f : Tile → Tile)
    (w9 : World) (hf : ∀ t, TileInv t → TileInv (f t))
    (h : WorldInv w) (hm : w.modifyTile x y f = some w9) : WorldInv w9 := by
  obtain ⟨o, _, ho, hw9⟩ := modifyTile_spec _ _ _ _ _ hm
  rw [hw9]
  exact worldInv_set w.tiles o f hf h

theorem worldInv_payout (per x y : Nat) (cs : List Nat) :
    ∀ (w : World) (flips : List Bool) (w9 : World) (flips9 : List Bool),
      WorldInv w → payoutAux per x y w flips cs = some (w9, flips9) →
      WorldInv w9 := by
  induction cs with
  | nil =>
    intro w flips w9 flips9 hinv h
    simp only [payoutAux] at h
    have hw : w = w9 := congrArg Prod.fst ((Option.some.injEq _ _).mp h)
    exact hw ▸ hinv
  | cons side rest ih =>
    intro w flips w9 flips9 hinv h
    rcases hse : sidesEnum.getD side (0, 0, 0) with ⟨s0, dx, dy⟩
    simp only [payoutAux, hse] at h
    cases hcx : checkedAddSigned x dx with
    | none => rw [hcx] at h; dsimp only at h; exact Option.noConfusion h
    | some x2 =>
      cases hcy : checkedAddSigned y dy with
      | none => rw [hcx, hcy] at h; dsimp only at h; exact Option.noConfusion h
      | some y2 =>
        rw [hcx, hcy] at h
        dsimp only at h
        cases hm : w.modifyTile x2 y2 (shareUpd per) with
        | none => rw [hm] at h; exact Option.noConfusion h
        | some w1 =>
          rw [hm] at h
          dsimp only at h
          have hinv1 : WorldInv w1 :=
            worldInv_modifyTile w x2 y2 _ w1 (tileInv_shareUpd per) hinv hm
          cases hfl : flips.headD false with
          | false =>
            rw [hfl] at h
            simp only [Bool.false_eq_true, if_false] at h
            exact ih w1 flips.tail w9 flips9 hinv1 h
          | true =>
            rw [hfl] at h
            simp only [if_true] at h
            cases hxy2 : w1.dim.xy_offset x2 y2 with
            | none => rw [hxy2] at h; exact Option.noConfusion h
            | some o2 =>
              rw [hxy2] at h
              have hmap : (Option.map (fun o =>
                  { w1 with next_flagged_tiles := w1.next_flagged_tiles ++ [o] }) (some o2))
                  = some { w1 with next_flagged_tiles := w1.next_flagged_tiles ++ [o2] } := rfl
              rw [hmap] at h
              dsimp only at h
              exact ih { w1 with next_flagged_tiles := w1.next_flagged_tiles ++ [o2] }
                flips.tail w9 flips9 (fun t ht => hinv1 t ht) h

theorem worldInv_flaggedTick (w : World) (flips : List Bool) (o : Nat)
    (w9 : World) (flips9 : List Bool) (hinv : WorldInv w)
    (h : flaggedTick w flips o = some (w9, flips9)) : WorldInv w9 := by
  unfold flaggedTick at h
  cases hxy : w.dim.offset_xy o with
  | none => rw [hxy] at h; exact Option.noConfusion h
  | some xy =>
    rcases xy with ⟨x, y⟩
    rw [hxy] at h
    dsimp only at h
    cases hto : w.tiles[o]? with
    | none => rw [hto] at h; exact Option.noConfusion h
    | some tile =>
      rw [hto] at h
      dsimp only at h
      by_cases he : tile.ty.emits
      · rw [if_pos he] at h
        cases hc : connsAux w x y sidesEnum with
        | none => rw [hc] at h; exact Option.noConfusion h
        | some conns =>
          rw [hc] at h
          dsimp only at h
          cases hm : w.modifyTile x y (payAll tile.signal_sum) with
          | none => rw [hm] at h; exact Option.noConfusion h
          | some w1 =>
            rw [hm] at h
            dsimp only at h
            have hinv1 : WorldInv w1 :=
              worldInv_modifyTile w x y _ w1 (tileInv_payAll tile.signal_sum) hinv hm
            cases conns with
            | nil => exact Option.noConfusion h
            | cons c cs =>
              exact worldInv_payout _ x y _ w1 flips w9 flips9 hinv1 h
      · rw [if_neg he] at h
        have hw : w = w9 := congrArg Prod.fst ((Option.some.injEq _ _).mp h)
        exact hw ▸ hinv

theorem worldInv_phaseB (wl : List Nat) :
    ∀ (w : World) (flips : List Bool) (w9 : World) (flips9 : List Bool),
      WorldInv w → phaseBAux w flips wl = some (w9, flips9) → WorldInv w9 := by
  induction wl with
  | nil =>
    intro w flips w9 flips9 hinv h
    rw [phaseBAux] at h
    have hw : w = w9 := congrArg Prod.fst ((Option.some.injEq _ _).mp h)
    exact hw ▸ hinv
  | cons o rest ih =>
    intro w flips w9 flips9 hinv h
    rw [phaseBAux] at h
    cases hft : flaggedTick w flips o with
    | none => rw [hft] at h; exact Option.noConfusion h
    | some p =>
      rcases p with ⟨w1, flips1⟩
      rw [hft] at h
      dsimp only at h
      exact ih w1 flips1 w9 flips9
        (worldInv_flaggedTick w flips o w1 flips1 hinv hft) h

theorem worldInv_randomTick (w : World) (o : Nat) (w9 : World)
    (hinv : WorldInv w) (h : w.random_tick o = some w9) : WorldInv w9 := by
  unfold World.random_tick at h
  by_cases ho : o < w.tiles.length
  · rw [if_pos ho] at h
    have hw9 := ((Option.some.injEq _ _).mp h).symm
    subst hw9
    exact worldInv_set w.tiles o bumpTile tileInv_bumpTile hinv
  · rw [if_neg ho] at h
    exact Option.noConfusion h

theorem worldInv_phaseC (sample : List Nat) :
    ∀ (w w9 : World), WorldInv w → phaseCAux w sample = some w9 → WorldInv w9 := by
  induction sample with
  | nil =>
    intro w w9 hinv h
    rw [phaseCAux] at h
    have hw := (Option.some.injEq _ _).mp h
    exact hw ▸ hinv
  | cons o rest ih =>
    intro w w9 hinv h
    rw [phaseCAux] at h
    cases hr : w.random_tick o with
    | none => rw [hr] at h; exact Option.noConfusion h
    | some w1 =>
      rw [hr] at h
      exact ih w1 w9 (worldInv_randomTick w o w1 hinv hr) h

/-- C3 (amended): the ring invariant holds modulo 2^16 — for every cell,
after construction and after every phase and tick, `signal_sum` equals the
sum of the 4 `signals` slots reduced mod 2^16 (with all stored quantities
below 2^16); the decay shift maintains it incrementally, while Phase B's
`flagged_tick` and Phase C's `random_tick` leave every cell's type,
history slots and `signal_sum` entirely unchanged (they mutate only
pending).  The unreduced equality `signal_sum = Σ signals[i]` claimed in
the spec fails on reachable overflow traces (see the counterexample). -/
theorem ring_invariant_mod :
    (∀ a b, WorldInv (World.new a b)) ∧
    (∀ w now, WorldInv w → WorldInv (w.pre_tick now)) ∧
    (∀ w flips o w9 flips9, WorldInv w → flaggedTick w flips o = some (w9, flips9) →
      WorldInv w9 ∧ w9.tiles.length = w.tiles.length ∧
      ∀ q, (w9.tiles.getD q default).ty = (w.tiles.getD q default).ty ∧
           (w9.tiles.getD q default).signals = (w.tiles.getD q default).signals ∧
           (w9.tiles.getD q default).signal_sum = (w.tiles.getD q default).signal_sum) ∧
    (∀ w o w9, WorldInv w → w.random_tick o = some w9 →
      WorldInv w9 ∧ w9.tiles.length = w.tiles.length ∧
      ∀ q, (w9.tiles.getD q default).ty = (w.tiles.getD q default).ty ∧
           (w9.tiles.getD q default).signals = (w.tiles.getD q default).signals ∧
           (w9.tiles.getD q default).signal_sum = (w.tiles.getD q default).signal_sum) ∧
    (∀ w now flips sample w9, WorldInv w → w.tick now flips sample = some w9 →
      WorldInv w9) := by
  refine ⟨worldInv_new, worldInv_preTick, ?_, ?_, ?_⟩
  · intro w flips o w9 flips9 hinv h
    obtain ⟨_, _, _, hlen, _, _, hproj⟩ := flaggedTick_effect _ _ _ _ _ h
    exact ⟨worldInv_flaggedTick w flips o w9 flips9 hinv h, hlen, hproj⟩
  · intro w o w9 hinv h
    obtain ⟨ho, _, _, _, _, hlen, hat, hne⟩ := random_tick_effect _ _ _ h
    refine ⟨worldInv_randomTick w o w9 hinv h, hlen, ?_⟩
    intro q
    by_cases hq : q = o
    · subst hq
      rw [hat]
      exact ⟨rfl, rfl, rfl⟩
    · rw [hne q hq]
      exact ⟨rfl, rfl, rfl⟩
  · intro w now flips sample w9 hinv h
    rw [tick_eq] at h
    cases hb : phaseBAux { w.pre_tick now with
        flagged_tiles := (w.pre_tick now).next_flagged_tiles,
        next_flagged_tiles := [] } flips (w.pre_tick now).flagged_tiles with
    | none => rw [hb] at h; exact Option.noConfusion h
    | some p =>
      rcases p with ⟨w2, flips2⟩
      rw [hb] at h
      dsimp only at h
      have hinv0 : WorldInv (w.pre_tick now) := worldInv_preTick w now hinv
      have hinv1 : WorldInv ({ w.pre_tick now with
          flagged_tiles := (w.pre_tick now).next_flagged_tiles,
          next_flagged_tiles := [] } : World) := fun t ht => hinv0 t ht
      have hinv2 : WorldInv w2 := worldInv_phaseB _ _ flips w2 flips2 hinv1 hb
      by_cases hv : ValidSample w2.tiles.length sample
      · rw [if_pos hv] at h
        exact worldInv_phaseC sample
          { w2 with flagged_tiles := w2.next_flagged_tiles, next_flagged_tiles := [] }
          w9 (fun t ht => hinv2 t ht) h
      · rw [if_neg hv] at h
        exact Option.noConfusion h

/-- Witness for the amended C3 at concrete worlds: the invariant holds at
construction, after a decay shift, and after a full tick of the active
two-Brick world. -/
theorem ring_invariant_mod_witness :
    WorldInv (World.new 3 3) ∧
    WorldInv ((World.new 3 3).pre_tick 0) ∧
    WorldInv ((worldTwoBricksActive.tick 0 [true] [0]).getD (World.new 0 0)) := by
  refine ⟨ring_invariant_mod.1 3 3, ring_invariant_mod.2.1 (World.new 3 3) 0
    (ring_invariant_mod.1 3 3), ?_⟩
  exact ring_invariant_mod.2.2.2.2 worldTwoBricksActive 0 [true] [0] _
    (by decide) (by decide)

/-! ## C4: the exact payout of an emitting cell -/

theorem connsAux_spec (w : World) (x y : Nat) :
    ∀ (l : List (Nat × Int × Int)) (conns : List Nat),
      connsAux w x y l = some conns →
      conns.Sublist (l.map Prod.fst) ∧
      ∀ side ∈ conns, ∃ dx dy x2 y2 t,
        (side, dx, dy) ∈ l ∧
        checkedAddSigned x dx = some x2 ∧ checkedAddSigned y dy = some y2 ∧
        w.getTile x2 y2 = some t ∧ t.ty.accepts = true := by
  intro l
  induction l with
  | nil =>
    intro conns h
    rw [connsAux] at h
    have hc := (Option.some.injEq _ _).mp h
    subst hc
    exact ⟨List.Sublist.refl _, fun side hs => absurd hs (by simp)⟩
  | cons e rest ih =>
    rcases e with ⟨side0, dx0, dy0⟩
    intro conns h
    rw [connsAux] at h
    cases hcx : checkedAddSigned x dx0 with
    | none =>
      rw [hcx] at h
      dsimp only at h
      obtain ⟨hsub, hmem⟩ := ih conns h
      refine ⟨hsub.trans (List.sublist_cons_self _ _), ?_⟩
      intro side hs
      obtain ⟨dx, dy, x2, y2, t, hin, h1, h2, h3, h4⟩ := hmem side hs
      exact ⟨dx, dy, x2, y2, t, List.mem_cons_of_mem _ hin, h1, h2, h3, h4⟩
    | some x2 =>
      cases hcy : checkedAddSigned y dy0 with
      | none =>
        rw [hcx, hcy] at h
        dsimp only at h
        obtain ⟨hsub, hmem⟩ := ih conns h
        refine ⟨hsub.trans (List.sublist_cons_self _ _), ?_⟩
        intro side hs
        obtain ⟨dx, dy, x2, y2, t, hin, h1, h2, h3, h4⟩ := hmem side hs
        exact ⟨dx, dy, x2, y2, t, List.mem_cons_of_mem _ hin, h1, h2, h3, h4⟩
      | some y2 =>
        rw [hcx, hcy] at h
        dsimp only at h
        cases hg : w.getTile x2 y2 with
        | none => rw [hg] at h; exact Option.noConfusion h
        | some t =>
          rw [hg] at h
          dsimp only at h
          cases hrest : connsAux w x y rest with
          | none => rw [hrest] at h; exact Option.noConfusion h
          | some cs =>
            rw [hrest] at h
            dsimp only at h
            obtain ⟨hsub, hmem⟩ := ih cs hrest
            have hc := (Option.some.injEq _ _).mp h
            by_cases ha : t.ty.accepts
            · rw [if_pos ha] at hc
              subst hc
              constructor
              · exact List.Sublist.cons₂ _ hsub
              · intro side hs
                rcases List.mem_cons.mp hs with hs | hs
                · subst hs
                  exact ⟨dx0, dy0, x2, y2, t, List.mem_cons_self _ _, hcx, hcy, hg, ha⟩
                · obtain ⟨dx, dy, x3, y3, t3, hin, h1, h2, h3, h4⟩ := hmem side hs
                  exact ⟨dx, dy, x3, y3, t3, List.mem_cons_of_mem _ hin, h1, h2, h3, h4⟩
            · rw [if_neg ha] at hc
              subst hc
              refine ⟨hsub.trans (List.sublist_cons_self _ _), ?_⟩
              intro side hs
              obtain ⟨dx, dy, x3, y3, t3, hin, h1, h2, h3, h4⟩ := hmem side hs
              exact ⟨dx, dy, x3, y3, t3, List.mem_cons_of_mem _ hin, h1, h2, h3, h4⟩

theorem sidesEnum_mem (side : Nat) (dx dy : Int)
    (h : (side, dx, dy) ∈ sidesEnum) :
    (side = 0 ∧ dx = 1 ∧ dy = 0) ∨ (side = 1 ∧ dx = -1 ∧ dy = 0) ∨
    (side = 2 ∧ dx = 0 ∧ dy = 1) ∨ (side = 3 ∧ dx = 0 ∧ dy = -1) := by
  simp only [sidesEnum, List.mem_cons, List.not_mem_nil, or_false,
    Prod.mk.injEq] at h
  tauto

theorem getTile_spec (w : World) (x y : Nat) (t : Tile)
    (h : w.getTile x y = some t) :
    x < w.dim.width ∧ y < w.dim.height ∧
    x + y * w.dim.width < w.tiles.length ∧
    t = w.tiles.getD (x + y * w.dim.width) default := by
  unfold World.getTile at h
  cases hxy : w.dim.xy_offset x y with
  | none => rw [hxy] at h; exact Option.noConfusion h
  | some o =>
    rw [hxy] at h
    obtain ⟨hx, hy, ho⟩ := xy_offset_some _ _ _ _ hxy
    subst ho
    obtain ⟨hlt, hget⟩ := getD_lt_length _ _ _ _ h
    exact ⟨hx, hy, hlt, hget.symm⟩

/-- Each side stored in the connection set is a valid in-bounds probe, and
its neighbor tile (at `sideOff`) accepts. -/
theorem conns_side_ok (w : World) (x y side : Nat)
    (hex : ∃ dx dy x2 y2 t, (side, dx, dy) ∈ sidesEnum ∧
      checkedAddSigned x dx = some x2 ∧ checkedAddSigned y dy = some y2 ∧
      w.getTile x2 y2 = some t ∧ t.ty.accepts = true) :
    SideOkay w.dim x y side ∧ sideOff w.dim x y side < w.tiles.length ∧
    (w.tiles.getD (sideOff w.dim x y side) default).ty.accepts = true := by
  obtain ⟨dx, dy, x2, y2, t, hin, hcx, hcy, hg, ha⟩ := hex
  obtain ⟨hx2, hy2, hlt, ht⟩ := getTile_spec w x2 y2 t hg
  rcases sidesEnum_mem side dx dy hin with ⟨h0, hdx, hdy⟩ | ⟨h0, hdx, hdy⟩ |
    ⟨h0, hdx, hdy⟩ | ⟨h0, hdx, hdy⟩ <;> subst h0 <;> subst hdx <;> subst hdy
  · rw [checkedAddSigned_one] at hcx
    rw [checkedAddSigned_zero] at hcy
    have hx2e : x2 = x + 1 := ((Option.some.injEq _ _).mp hcx).symm
    have hy2e : y2 = y := ((Option.some.injEq _ _).mp hcy).symm
    rw [hx2e] at hx2 hlt ht
    rw [hy2e] at hy2 hlt ht
    refine ⟨⟨by omega, hx2, hy2, by omega, by omega⟩, ?_, ?_⟩
    · show (x + 1) + y * w.dim.width < _
      exact hlt
    · show ((w.tiles.getD ((x + 1) + y * w.dim.width) default).ty.accepts) = true
      rw [← ht]; exact ha
  · rw [checkedAddSigned_neg_one] at hcx
    rw [checkedAddSigned_zero] at hcy
    by_cases hx0 : x = 0
    · rw [if_pos hx0] at hcx; exact Option.noConfusion hcx
    · rw [if_neg hx0] at hcx
      have hx2e : x2 = x - 1 := ((Option.some.injEq _ _).mp hcx).symm
      have hy2e : y2 = y := ((Option.some.injEq _ _).mp hcy).symm
      rw [hx2e] at hx2 hlt ht
      rw [hy2e] at hy2 hlt ht
      refine ⟨⟨by omega, hx2, hy2, by omega, by omega⟩, ?_, ?_⟩
      · show (x - 1) + y * w.dim.width < _
        exact hlt
      · show ((w.tiles.getD ((x - 1) + y * w.dim.width) default).ty.accepts) = true
        rw [← ht]; exact ha
  · rw [checkedAddSigned_zero] at hcx
    rw [checkedAddSigned_one] at hcy
    have hx2e : x2 = x := ((Option.some.injEq _ _).mp hcx).symm
    have hy2e : y2 = y + 1 := ((Option.some.injEq _ _).mp hcy).symm
    rw [hx2e] at hx2 hlt ht
    rw [hy2e] at hy2 hlt ht
    refine ⟨⟨by omega, hx2, hy2, by omega, by omega⟩, ?_, ?_⟩
    · show x + (y + 1) * w.dim.width < _
      exact hlt
    · show ((w.tiles.getD (x + (y + 1) * w.dim.width) default).ty.accepts) = true
      rw [← ht]; exact ha
  · rw [checkedAddSigned_zero] at hcx
    rw [checkedAddSigned_neg_one] at hcy
    by_cases hy0 : y = 0
    · rw [if_pos hy0] at hcy; exact Option.noConfusion hcy
    · rw [if_neg hy0] at hcy
      have hx2e : x2 = x := ((Option.some.injEq _ _).mp hcx).symm
      have hy2e : y2 = y - 1 := ((Option.some.injEq _ _).mp hcy).symm
      rw [hx2e] at hx2 hlt ht
      rw [hy2e] at hy2 hlt ht
      refine ⟨⟨by omega, hx2, hy2, by omega, by omega⟩, ?_, ?_⟩
      · show x + (y - 1) * w.dim.width < _
        exact hlt
      · show ((w.tiles.getD (x + (y - 1) * w.dim.width) default).ty.accepts) = true
        rw [← ht]; exact ha

theorem side_probe (x y side : Nat) (hs : side < 4)
    (h1 : side = 1 → 1 ≤ x) (h3 : side = 3 → 1 ≤ y) :
    ∃ s0 dx dy, sidesEnum.getD side (0, 0, 0) = (s0, dx, dy) ∧
      checkedAddSigned x dx = some (sideCoord x y side).1 ∧
      checkedAddSigned y dy = some (sideCoord x y side).2 := by
  interval_cases side
  · exact ⟨0, 1, 0, rfl, checkedAddSigned_one x, checkedAddSigned_zero y⟩
  · have hx := h1 rfl
    refine ⟨1, -1, 0, rfl, ?_, checkedAddSigned_zero y⟩
    rw [checkedAddSigned_neg_one, if_neg (by omega)]
    rfl
  · exact ⟨2, 0, 1, rfl, checkedAddSigned_zero x, checkedAddSigned_one y⟩
  · have hy := h3 rfl
    refine ⟨3, 0, -1, rfl, checkedAddSigned_zero x, ?_⟩
    rw [checkedAddSigned_neg_one, if_neg (by omega)]
    rfl

theorem sideOff_ne (d : Dim) (x y side side' : Nat) (hne : side ≠ side')
    (h1 : SideOkay d x y side) (h2 : SideOkay d x y side') :
    sideOff d x y side ≠ sideOff d x y side' := by
  intro heq
  unfold sideOff at heq
  obtain ⟨hc1, hc2⟩ := xy_inj d.width h1.2.1 h2.2.1 heq
  obtain ⟨hs4, _, _, hx1, hy1⟩ := h1
  obtain ⟨hs4b, _, _, hx2, hy2⟩ := h2
  have hx1d : side ≠ 1 ∨ 1 ≤ x := by
    by_cases hh : side = 1
    exacts [Or.inr (hx1 hh), Or.inl hh]
  have hy1d : side ≠ 3 ∨ 1 ≤ y := by
    by_cases hh : side = 3
    exacts [Or.inr (hy1 hh), Or.inl hh]
  have hx2d : side' ≠ 1 ∨ 1 ≤ x := by
    by_cases hh : side' = 1
    exacts [Or.inr (hx2 hh), Or.inl hh]
  have hy2d : side' ≠ 3 ∨ 1 ≤ y := by
    by_cases hh : side' = 3
    exacts [Or.inr (hy2 hh), Or.inl hh]
  clear hx1 hy1 hx2 hy2
  interval_cases side <;> interval_cases side' <;>
    dsimp only [sideCoord] at hc1 hc2 <;> omega

theorem sideOff_ne_center (d : Dim) (x y side : Nat)
    (h1 : SideOkay d x y side) (hx : x < d.width) :
    sideOff d x y side ≠ x + y * d.width := by
  intro heq
  unfold sideOff at heq
  obtain ⟨hc1, hc2⟩ := xy_inj d.width h1.2.1 hx heq
  obtain ⟨hs4, _, _, hx1, hy1⟩ := h1
  have hx1d : side ≠ 1 ∨ 1 ≤ x := by
    by_cases hh : side = 1
    exacts [Or.inr (hx1 hh), Or.inl hh]
  have hy1d : side ≠ 3 ∨ 1 ≤ y := by
    by_cases hh : side = 3
    exacts [Or.inr (hy1 hh), Or.inl hh]
  clear hx1 hy1
  interval_cases side <;> dsimp only [sideCoord] at hc1 hc2 <;> omega

/-- The payout loop under valid probes: it succeeds, consumes one flip per
connection, applies `shareUpd` at each connection's offset exactly once,
and leaves every other tile untouched. -/
theorem payoutAux_spec (per x y : Nat) (d : Dim) (cs : List Nat) :
    ∀ (w : World) (flips : List Bool), w.dim = d →
      (∀ side ∈ cs, SideOkay d x y side ∧ sideOff d x y side < w.tiles.length) →
      cs.Nodup →
      ∃ w9, payoutAux per x y w flips cs = some (w9, flips.drop cs.length) ∧
        (∀ q, (∀ side ∈ cs, q ≠ sideOff d x y side) →
          w9.tiles.getD q default = w.tiles.getD q default) ∧
        (∀ side ∈ cs, w9.tiles.getD (sideOff d x y side) default
          = shareUpd per (w.tiles.getD (sideOff d x y side) default)) := by
  induction cs with
  | nil =>
    intro w flips _ _ _
    exact ⟨w, rfl, fun q _ => rfl, fun side hs => absurd hs (by simp)⟩
  | cons side rest ih =>
    intro w flips hdim hok hnd
    have hmem : side ∈ side :: rest := List.mem_cons_self _ _
    obtain ⟨hso, hlt⟩ := hok side hmem
    have hnin : side ∉ rest := (List.nodup_cons.mp hnd).1
    have hndr : rest.Nodup := (List.nodup_cons.mp hnd).2
    obtain ⟨s0, dx, dy, hse, hpx, hpy⟩ :=
      side_probe x y side hso.1 hso.2.2.2.1 hso.2.2.2.2
    have hxyo : w.dim.xy_offset (sideCoord x y side).1 (sideCoord x y side).2
        = some (sideOff d x y side) := by
      rw [hdim]
      exact xy_offset_eq d _ _ hso.2.1 hso.2.2.1
    have hmod : w.modifyTile (sideCoord x y side).1 (sideCoord x y side).2
        (shareUpd per) = some { w with tiles := w.tiles.set (sideOff d x y side) (shareUpd per (w.tiles.getD (sideOff d x y side) default)) } := by
      unfold World.modifyTile
      rw [hxyo]
      dsimp only
      rw [if_pos hlt]
    set wA : World := { w with tiles := w.tiles.set (sideOff d x y side) (shareUpd per (w.tiles.getD (sideOff d x y side) default)) } with hwA
    have hlenA : wA.tiles.length = w.tiles.length := List.length_set ..
    have hdimA : wA.dim = d := hdim
    have hneq : ∀ side' ∈ rest, sideOff d x y side ≠ sideOff d x y side' :=
      fun side' hs' => sideOff_ne d x y side side'
        (fun he => hnin (he ▸ hs')) hso (hok side' (List.mem_cons_of_mem _ hs')).1
    have hgetA : ∀ q, q ≠ sideOff d x y side →
        wA.tiles.getD q default = w.tiles.getD q default := by
      intro q hq
      show (w.tiles.set _ _).getD q default = _
      rw [getD_set_ne _ _ _ _ _ (fun he => hq he.symm)]
    have hgetAself : wA.tiles.getD (sideOff d x y side) default
        = shareUpd per (w.tiles.getD (sideOff d x y side) default) := by
      show (w.tiles.set _ _).getD _ default = _
      rw [getD_set_self _ _ _ _ hlt]
    -- the optional flag push changes only next_flagged_tiles
    cases hfl : flips.headD false with
    | false =>
      obtain ⟨w9, heq, huntouched, hupd⟩ := ih wA flips.tail hdimA
        (fun side' hs' => ⟨(hok side' (List.mem_cons_of_mem _ hs')).1,
          by rw [hlenA]; exact (hok side' (List.mem_cons_of_mem _ hs')).2⟩) hndr
      refine ⟨w9, ?_, ?_, ?_⟩
      · simp only [payoutAux, hse]
        rw [hpx, hpy]
        dsimp only
        rw [hmod]
        dsimp only
        rw [hfl]
        simp only [Bool.false_eq_true, if_false]
        rw [drop_tail_succ] at heq
        exact heq
      · intro q hq
        rw [huntouched q (fun side' hs' => hq side' (List.mem_cons_of_mem _ hs'))]
        exact hgetA q (hq side hmem)
      · intro side' hs'
        rcases List.mem_cons.mp hs' with hs' | hs'
        · subst hs'
          rw [huntouched _ (fun side2 hs2 => hneq side2 hs2)]
          exact hgetAself
        · rw [hupd side' hs', hgetA _ (fun he => hneq side' hs' he.symm)]
    | true =>
      set wB : World := { wA with
        next_flagged_tiles := wA.next_flagged_tiles ++ [sideOff d x y side] } with hwB
      have hBtiles : wB.tiles = wA.tiles := rfl
      obtain ⟨w9, heq, huntouched, hupd⟩ := ih wB flips.tail (by rw [hwB]; exact hdimA)
        (fun side' hs' => ⟨(hok side' (List.mem_cons_of_mem _ hs')).1,
          by rw [hwB]; show sideOff d x y side' < wA.tiles.length
             rw [hlenA]; exact (hok side' (List.mem_cons_of_mem _ hs')).2⟩) hndr
      refine ⟨w9, ?_, ?_, ?_⟩
      · simp only [payoutAux, hse]
        rw [hpx, hpy]
        dsimp only
        rw [hmod]
        dsimp only
        rw [hfl]
        simp only [if_true]
        rw [show wA.dim.xy_offset (sideCoord x y side).1 (sideCoord x y side).2
          = some (sideOff d x y side) from hxyo]
        have hmap : (Option.map (fun o =>
            { wA with next_flagged_tiles := wA.next_flagged_tiles ++ [o] })
            (some (sideOff d x y side))) = some wB := rfl
        rw [hmap]
        dsimp only
        rw [drop_tail_succ] at heq
        exact heq
      · intro q hq
        rw [huntouched q (fun side' hs' => hq side' (List.mem_cons_of_mem _ hs'))]
        show wA.tiles.getD q default = _
        exact hgetA q (hq side hmem)
      · intro side' hs'
        rcases List.mem_cons.mp hs' with hs' | hs'
        · subst hs'
          rw [huntouched _ (fun side2 hs2 => hneq side2 hs2)]
          exact hgetAself
        · rw [hupd side' hs']
          show shareUpd per (wA.tiles.getD _ default) = _
          rw [hgetA _ (fun he => hneq side' hs' he.symm)]

theorem payAll_exact (sn n : Nat) (h1 : sn ≤ n) (h2 : n < M) :
    (n + M - sn) % M = n - sn := by
  have e : n + M - sn = (n - sn) + M := by omega
  rw [e, Nat.add_mod_right, Nat.mod_eq_of_lt (by omega)]

/-- C4: when Phase B processes an emitting cell (whose four probes stay in
bounds) with `running_sum` S and a non-empty connection set of n sides,
the cell's pending drops by exactly S (modulo 2^16; exactly S when no
wrap), each non-absorbing connection's pending grows by exactly ⌊S/n⌋
(when no wrap), each absorbing connection is untouched, and no other cell
changes — so the division remainder lands nowhere. -/
theorem propagation_payout (w : World) (flips : List Bool) (o x y : Nat)
    (tile : Tile) (conns : List Nat)
    (ho : w.dim.offset_xy o = some (x, y))
    (ht : w.tiles[o]? = some tile)
    (he : tile.ty.emits = true)
    (hc : connsAux w x y sidesEnum = some conns)
    (hne : conns ≠ []) :
    ∃ w9 flips9, flaggedTick w flips o = some (w9, flips9) ∧
      w9.tiles.getD o default = payAll tile.signal_sum tile ∧
      (tile.signal_sum ≤ tile.next_signal → tile.next_signal < M →
        (w9.tiles.getD o default).next_signal
          = tile.next_signal - tile.signal_sum) ∧
      (∀ side ∈ conns, w9.tiles.getD (sideOff w.dim x y side) default
        = shareUpd (tile.signal_sum / conns.length)
            (w.tiles.getD (sideOff w.dim x y side) default)) ∧
      (∀ side ∈ conns,
        ((w.tiles.getD (sideOff w.dim x y side) default).ty.absorbs = true →
          w9.tiles.getD (sideOff w.dim x y side) default
            = w.tiles.getD (sideOff w.dim x y side) default) ∧
        ((w.tiles.getD (sideOff w.dim x y side) default).ty.absorbs = false →
          (w.tiles.getD (sideOff w.dim x y side) default).next_signal
            + tile.signal_sum / conns.length < M →
          (w9.tiles.getD (sideOff w.dim x y side) default).next_signal
            = (w.tiles.getD (sideOff w.dim x y side) default).next_signal
              + tile.signal_sum / conns.length)) ∧
      (∀ q, q ≠ o → (∀ side ∈ conns, q ≠ sideOff w.dim x y side) →
        w9.tiles.getD q default = w.tiles.getD q default) := by
  obtain ⟨hx, hy, hoe, holt⟩ := offset_xy_spec w.dim o x y ho
  obtain ⟨hot, hgetoD⟩ := getD_lt_length w.tiles o tile default ht
  obtain ⟨hsub, hmem⟩ := connsAux_spec w x y sidesEnum conns hc
  have hmap4 : sidesEnum.map Prod.fst = [0, 1, 2, 3] := rfl
  rw [hmap4] at hsub
  have hnd : conns.Nodup := hsub.nodup (by decide)
  have hsok : ∀ side ∈ conns,
      SideOkay w.dim x y side ∧ sideOff w.dim x y side < w.tiles.length :=
    fun side hs =>
      ⟨(conns_side_ok w x y side (hmem side hs)).1,
       (conns_side_ok w x y side (hmem side hs)).2.1⟩
  have hcent : ∀ side ∈ conns, sideOff w.dim x y side ≠ o := by
    intro side hs
    have hfact := sideOff_ne_center w.dim x y side (hsok side hs).1 hx
    rw [hoe] at hfact
    exact hfact
  have hxyoC : w.dim.xy_offset x y = some o := by
    rw [xy_offset_eq _ _ _ hx hy, hoe]
  have hmodC : w.modifyTile x y (payAll tile.signal_sum)
      = some { w with tiles := w.tiles.set o (payAll tile.signal_sum (w.tiles.getD o default)) } := by
    unfold World.modifyTile
    rw [hxyoC]
    dsimp only
    rw [if_pos hot]
  set wE : World := { w with tiles := w.tiles.set o (payAll tile.signal_sum (w.tiles.getD o default)) } with hwE
  have hElen : wE.tiles.length = w.tiles.length := List.length_set ..
  have hEo : wE.tiles.getD o default = payAll tile.signal_sum tile := by
    show (w.tiles.set o _).getD o default = _
    rw [getD_set_self _ _ _ _ hot, hgetoD]
  have hEq2 : ∀ q, q ≠ o → wE.tiles.getD q default = w.tiles.getD q default := by
    intro q hq
    show (w.tiles.set o _).getD q default = _
    rw [getD_set_ne _ _ _ _ _ (fun heq => hq heq.symm)]
  obtain ⟨w9, heq, huntouched, hupd⟩ := payoutAux_spec
    (tile.signal_sum / conns.length) x y w.dim conns wE flips rfl
    (fun side hs => ⟨(hsok side hs).1, by rw [hElen]; exact (hsok side hs).2⟩) hnd
  cases hconns : conns with
  | nil => exact absurd hconns hne
  | cons c cs =>
    subst hconns
    refine ⟨w9, flips.drop (c :: cs).length, ?_, ?_, ?_, ?_, ?_, ?_⟩
    · unfold flaggedTick
      rw [ho]
      dsimp only
      rw [ht]
      dsimp only
      rw [if_pos he, hc]
      dsimp only
      rw [hmodC]
      dsimp only
      exact heq
    · rw [huntouched o (fun side hs => (hcent side hs).symm)]
      exact hEo
    · intro hle hM
      rw [huntouched o (fun side hs => (hcent side hs).symm), hEo]
      show (tile.next_signal + M - tile.signal_sum) % M = _
      exact payAll_exact _ _ hle hM
    · intro side hs
      rw [hupd side hs, hEq2 _ (hcent side hs)]
    · intro side hs
      have hthis := hupd side hs
      rw [hEq2 _ (hcent side hs)] at hthis
      constructor
      · intro habs
        rw [hthis]
        unfold shareUpd
        rw [if_pos habs]
      · intro habs hlt
        rw [hthis]
        unfold shareUpd
        rw [if_neg (by rw [habs]; exact Bool.false_ne_true)]
        show (_ + _) % M = _
        exact Nat.mod_eq_of_lt hlt
    · intro q hq hq2
      rw [huntouched q hq2]
      exact hEq2 q hq

/-- Witness for C4: the charged center Brick of `worldTwoBricks` (S = 10)
with its single east connection (side 0, offset 5). -/
theorem propagation_payout_witness :
    ∃ w9 flips9, flaggedTick worldTwoBricks [] 4 = some (w9, flips9) ∧
      w9.tiles.getD 4 default = payAll brickTileHot.signal_sum brickTileHot ∧
      (brickTileHot.signal_sum ≤ brickTileHot.next_signal →
        brickTileHot.next_signal < M →
        (w9.tiles.getD 4 default).next_signal
          = brickTileHot.next_signal - brickTileHot.signal_sum) ∧
      (∀ side ∈ [0], w9.tiles.getD (sideOff worldTwoBricks.dim 1 1 side) default
        = shareUpd (brickTileHot.signal_sum / ([0] : List Nat).length)
            (worldTwoBricks.tiles.getD (sideOff worldTwoBricks.dim 1 1 side) default)) ∧
      (∀ side ∈ [0],
        ((worldTwoBricks.tiles.getD (sideOff worldTwoBricks.dim 1 1 side) default).ty.absorbs = true →
          w9.tiles.getD (sideOff worldTwoBricks.dim 1 1 side) default
            = worldTwoBricks.tiles.getD (sideOff worldTwoBricks.dim 1 1 side) default) ∧
        ((worldTwoBricks.tiles.getD (sideOff worldTwoBricks.dim 1 1 side) default).ty.absorbs = false →
          (worldTwoBricks.tiles.getD (sideOff worldTwoBricks.dim 1 1 side) default).next_signal
            + brickTileHot.signal_sum / ([0] : List Nat).length < M →
          (w9.tiles.getD (sideOff worldTwoBricks.dim 1 1 side) default).next_signal
            = (worldTwoBricks.tiles.getD (sideOff worldTwoBricks.dim 1 1 side) default).next_signal
              + brickTileHot.signal_sum / ([0] : List Nat).length)) ∧
      (∀ q, q ≠ 4 → (∀ side ∈ [0], q ≠ sideOff worldTwoBricks.dim 1 1 side) →
        w9.tiles.getD q default = worldTwoBricks.tiles.getD q default) :=
  propagation_payout worldTwoBricks [] 4 1 1 brickTileHot [0]
    (by decide) (by decide) (by decide) (by decide) (by decide)

end Pgm
